import Mathlib

/-!
Shallow embedding of the settings expansion and external-file synchronization
engine of LSP-ltex-plus (src/settings.py), together with proofs of the frozen
claims about it.

Modelling conventions:
* Configuration values (the contents of the Sublime settings store) are
  modelled by the JSON-like type JVal; Python dicts are insertion-ordered
  association lists, and dict assignment replaces the value in place.
* The filesystem is a map from path strings to (character content, mtime);
  mtimes are modelled by a strictly increasing clock, so a write always
  changes the stat mtime.  Directories are a set of path strings, touched
  only by mkdir(parents=True).
* Python strings are Lean Strings; string primitives used by the source
  (strip, startswith, splitlines, sorted, str.format, re.sub of the language
  sanitizing pattern) are embedded as executable character-list functions
  with exactly the semantics the source relies on (ASCII whitespace,
  newline = LF, code-point lexicographic order).
* copy.deepcopy and dict(...) copies are the identity in this pure model;
  in-place mutation of a Python dict/set is explicit state threading here.
  Consequently "the input document is never mutated" is inherent to the
  embedding: every function returns a new value.
* I/O never fails in the model (the source swallows write errors; the claims
  under verification do not concern the failure paths).
-/

namespace LtexPlus

/-- JSON-like configuration values as stored in the Sublime settings file. -/
inductive JVal where
  | str (s : String)
  | list (xs : List JVal)
  | dict (kvs : List (String × JVal))
  | bool (b : Bool)
  | null

/-- Lookup in an insertion-ordered association list (Python dict lookup). -/
def alistFind {α : Type} (l : List (String × α)) (k : String) : Option α :=
  match l with
  | [] => none
  | (k', v) :: rest => if k' = k then some v else alistFind rest k

/-- Assignment d[k] = v on an insertion-ordered association list: replaces the
value in place if the key is present, appends otherwise (Python dict update). -/
def alistSet {α : Type} (l : List (String × α)) (k : String) (v : α) : List (String × α) :=
  match l with
  | [] => [(k, v)]
  | (k', v') :: rest => if k' = k then (k', v) :: rest else (k', v') :: alistSet rest k v

/-- Whitespace characters stripped by Python str.strip (ASCII range). -/
def isWsChar (c : Char) : Bool :=
  c = ' ' || c = '\t' || c = '\n' || c = '\r' || c = '\x0b' || c = '\x0c'

/-- Model of Python str.strip on the character list. -/
def trimChars (l : List Char) : List Char :=
  ((l.dropWhile isWsChar).reverse.dropWhile isWsChar).reverse

/-- Model of Python str.strip. -/
def strip (s : String) : String := String.mk (trimChars s.data)

def startsWithChars : List Char → List Char → Bool
  | [], _ => true
  | _ :: _, [] => false
  | p :: ps, c :: cs => p = c && startsWithChars ps cs

/-- Model of Python s.startswith(p). -/
def startswith (s : String) (p : String) : Bool := startsWithChars p.data s.data

/-- Split a character list at every occurrence of the separator character.
With sep = newline this models str.splitlines for LF-separated text (the only
line terminator this system ever writes: files are opened with newline="\n").
With sep = '/' it models the component split of a POSIX path. -/
def splitOnChar (sep : Char) : List Char → List (List Char)
  | [] => [[]]
  | c :: rest =>
    if c = sep then [] :: splitOnChar sep rest
    else
      match splitOnChar sep rest with
      | [] => [[c]]
      | l :: ls => (c :: l) :: ls

def joinSep (sep : String) : List String → String
  | [] => ""
  | [s] => s
  | s :: rest => s ++ sep ++ joinSep sep rest

/-- A filesystem path as its list of components (pathlib.Path). -/
abbrev FPath := List String

/-- str(path) for a POSIX path. -/
def pathStr (p : FPath) : String := joinSep "/" p

/-- Path(s): parse a path string into components.  The model identifies
str(Path(s)) with s, which holds for the normalized path strings this system
produces (markers are created from str(path) itself). -/
def parsePath (s : String) : FPath := (splitOnChar '/' s.data).map String.mk

def isAbsolutePath (p : FPath) : Bool :=
  match p with
  | "" :: _ => true
  | _ => false

/-- settings.py lines 13-26: the NamedTuple SettingScope. -/
structure SettingScope where
  server_key : String
  expand_keys : List String
  enable_key : String
  dir_key : String
  default_subdir : String
  file_template : String
deriving DecidableEq

/-- settings.py lines 29-36: the dictionary scope. -/
def dictionaryScope : SettingScope :=
  ⟨"ltex.dictionary", ["ltex.dictionary", "dictionary"],
   "use_external_dictionary_files", "external_dictionary_dir",
   "dictionaries", "\x7blang\x7d.txt"⟩

/-- settings.py lines 37-44: the hidden-false-positives scope. -/
def hiddenFalsePositivesScope : SettingScope :=
  ⟨"ltex.hiddenFalsePositives", ["ltex.hiddenFalsePositives", "hiddenFalsePositives"],
   "use_external_hidden_false_positives_files", "external_hidden_false_positives_dir",
   "hidden_false_positives", "hiddenFalsePositives.\x7blang\x7d.txt"⟩

/-- settings.py lines 45-52: the disabled-rules scope. -/
def disabledRulesScope : SettingScope :=
  ⟨"ltex.disabledRules", ["ltex.disabledRules", "disabledRules"],
   "use_external_disabled_rules_files", "external_disabled_rules_dir",
   "disabled_rules", "disabledRules.\x7blang\x7d.txt"⟩

/-- settings.py lines 28-53: the static scope table. -/
def SCOPES : List SettingScope :=
  [dictionaryScope, hiddenFalsePositivesScope, disabledRulesScope]

/-- The character class [A-Za-z0-9._-] of the sanitizing pattern (line 64). -/
def isAllowedLangChar (c : Char) : Bool :=
  c.isAlpha || c.isDigit || c = '.' || c = '_' || c = '-'

/-- Semantics of re.sub with pattern [^A-Za-z0-9._-]+ and replacement "_": each
maximal run of disallowed characters becomes a single underscore.  The Boolean
argument records whether the previous character belonged to such a run. -/
def collapseRuns : Bool → List Char → List Char
  | _, [] => []
  | prevBad, c :: rest =>
    if isAllowedLangChar c then c :: collapseRuns false rest
    else if prevBad then collapseRuns true rest
    else '_' :: collapseRuns true rest

/-- cls.lang sanitize regex applied to lang.strip() (line 210, first half). -/
def sanitizeLang (lang : String) : String :=
  String.mk (collapseRuns false (strip lang).data)

/-- safe lang including the Python `or "unknown"` fallback (line 210). -/
def safeLang (lang : String) : String :=
  if (sanitizeLang lang).data.isEmpty then "unknown" else sanitizeLang lang

/-- Model of str.format for the scope templates, whose only field is
\x7blang\x7d: every occurrence of that six-character sequence is replaced. -/
def substLangChars (repl : List Char) : List Char → List Char
  | [] => []
  | '\x7b' :: 'l' :: 'a' :: 'n' :: 'g' :: '\x7d' :: rest => repl ++ substLangChars repl rest
  | c :: rest => c :: substLangChars repl rest

def formatLang (template lang : String) : String :=
  String.mk (substLangChars lang.data template.data)

/-- Modelled from the spec: the host editor's user-data root
(sublime.packages_path(), an external collaborator), a fixed absolute path. -/
def packagesPath : FPath := ["", "Packages"]

/-- Modelled from the spec: os.path.expandvars; the model has no environment
variables, so it is the identity. -/
def expandvars (s : String) : String := s

/-- Modelled from the spec: os.path.expanduser; the model has no home
directory substitution, so it is the identity. -/
def expanduser (s : String) : String := s

/-- Modelled from the spec: sublime.Settings.get, which returns None for a
missing key.  The store itself is the host configuration key-value store. -/
def settingsGet (store : List (String × JVal)) (k : String) : JVal :=
  (alistFind store k).getD JVal.null

/-- settings.py lines 290-292: _as_dict. -/
def as_dict (v : JVal) : List (String × JVal) :=
  match v with
  | .dict d => d
  | _ => []

/-- settings.py lines 294-296: _as_list. -/
def as_list (v : JVal) : List JVal :=
  match v with
  | .list l => l
  | _ => []

/-- dict.get(k) with default None. -/
def jGet (d : List (String × JVal)) (k : String) : JVal :=
  (alistFind d k).getD JVal.null

/-- Python truthiness of a settings value, for bool(settings.get(...)). -/
def truthy (v : JVal) : Bool :=
  match v with
  | .str s => !s.data.isEmpty
  | .list l => !l.isEmpty
  | .dict d => !d.isEmpty
  | .bool b => b
  | .null => false

/-- The recurring filter [x for x in l if isinstance(x, str) and x]. -/
def filterStr (l : List JVal) : List String :=
  l.filterMap (fun v =>
    match v with
    | .str s => if s.data.isEmpty then none else some s
    | _ => none)

/-- An on-disk file: its character content and stat mtime. -/
structure FileEntry where
  content : List Char
  mtime : Int
deriving DecidableEq

/-- The filesystem: files by path string, the set of existing directories,
and a clock producing strictly increasing mtimes. -/
structure FS where
  files : List (String × FileEntry)
  dirs : List String
  clock : Int
deriving DecidableEq

/-- settings.py line 62-63: one cache slot, "mtime" and "words".  The Python
set of words is modelled as the insertion-ordered duplicate-free list built by
set.add; only its membership and its sorted image are ever consumed. -/
structure CacheEntry where
  mtime : Int
  words : List String
deriving DecidableEq

/-- The mutable state touched by SettingsManager file operations. -/
structure St where
  fs : FS
  cache : List (String × CacheEntry)
deriving DecidableEq

/-- The full environment of a code-action call: the host settings store, the
file/cache state, and a counter of sublime.save_settings calls (the
persistence boundary). -/
structure Env where
  store : List (String × JVal)
  st : St
  saves : Nat

def fileFind (st : St) (ps : String) : Option FileEntry := alistFind st.fs.files ps

/-- path.stat().st_mtime if path.exists() else -1.0 (line 259). -/
def curMtime (st : St) (ps : String) : Int :=
  match fileFind st ps with
  | some fe => fe.mtime
  | none => -1

def contentChars (st : St) (ps : String) : List Char :=
  match fileFind st ps with
  | some fe => fe.content
  | none => []

def insertAbsent (l : List String) (x : String) : List String :=
  if l.contains x then l else l ++ [x]

def pathPrefixes : FPath → List FPath
  | [] => []
  | c :: rest => [c] :: (pathPrefixes rest).map (fun p => c :: p)

/-- path.parent.mkdir(parents=True, exist_ok=True) (line 226): creates the
directory and all its ancestors; touches nothing else. -/
def mkdir_parents (st : St) (dir : FPath) : St :=
  { st with fs := { st.fs with
      dirs := (pathPrefixes dir).foldl (fun d p => insertAbsent d (pathStr p)) st.fs.dirs } }

def splitNl (l : List Char) : List (List Char) := splitOnChar '\n' l

/-- One step of the read loop in _ensure_cache_loaded (lines 269-272): strip
the line, skip blank lines and lines starting with "#", add the rest. -/
def addLine (ws : List String) (line : List Char) : List String :=
  let w := strip (String.mk line)
  if w.data.isEmpty || startswith w "#" then ws else insertAbsent ws w

/-- The word set parsed from file content (lines 268-272). -/
def parseWords (content : List Char) : List String :=
  (splitNl content).foldl addLine []

/-- The cache-miss path of _ensure_cache_loaded (lines 265-277): read the file
(absent file reads as no words), store the fresh entry, return the words. -/
def reloadCache (st : St) (ps : String) (cur : Int) : St × List String :=
  let words :=
    match fileFind st ps with
    | some fe => parseWords fe.content
    | none => []
  ({ st with cache := alistSet st.cache ps ⟨cur, words⟩ }, words)

/-- settings.py lines 256-277: _ensure_cache_loaded. -/
def ensure_cache_loaded (st : St) (ps : String) : St × List String :=
  let cur := curMtime st ps
  match alistFind st.cache ps with
  | some e => if e.mtime = cur then (st, e.words) else reloadCache st ps cur
  | none => reloadCache st ps cur

/-- The skip condition of _append_words_to_file's candidate loop (line 234):
blank after stripping, a comment, or already in the in-memory set. -/
def skipWord (s : List String) (w' : String) : Bool :=
  w'.data.isEmpty || startswith w' "#" || s.contains w'

/-- The candidate loop of _append_words_to_file (lines 232-237), threading the
in-memory word set and the accumulating "added" list. -/
def appendLoop (s : List String) : List String → List String × List String
  | [] => (s, [])
  | w :: rest =>
    let w' := strip w
    if skipWord s w' then appendLoop s rest
    else
      let r := appendLoop (s ++ [w']) rest
      (r.1, w' :: r.2)

/-- The characters written for the added words: each word followed by LF
(lines 243-246). -/
def linesChars : List String → List Char
  | [] => []
  | w :: rest => w.data ++ '\n' :: linesChars rest

/-- Opening the file in append mode and writing: creates the file if absent,
otherwise extends its content; the stat mtime advances. -/
def fsAppendFile (st : St) (ps : String) (txt : List Char) : St :=
  let newClock := st.fs.clock + 1
  let newContent := contentChars st ps ++ txt
  { st with fs := { st.fs with
      files := alistSet st.fs.files ps ⟨newContent, newClock⟩,
      clock := newClock } }

/-- The write branch of _append_words_to_file (lines 242-250): append the
added words to the file and refresh the cache slot — its word set was already
mutated in place to finalSet during the loop, and its mtime is re-read from
the file after the write so the next load does not re-read. -/
def appendCommit (st : St) (ps : String) (finalSet added : List String) : St :=
  let st2 := fsAppendFile st ps (linesChars added)
  { st2 with cache := alistSet st2.cache ps ⟨curMtime st2 ps, finalSet⟩ }

/-- settings.py lines 224-254: _append_words_to_file.  The Python code mutates
the cached set in place during the loop and refreshes the cached mtime after
the write; the model writes the final cache entry in one step, which yields
the same state. -/
def append_words_to_file (st : St) (path : FPath) (words : List String) : St × List String :=
  let st1 := mkdir_parents st path.dropLast
  let ps := pathStr path
  let r0 := ensure_cache_loaded st1 ps
  let r := appendLoop r0.2 words
  if r.2 = [] then (r0.1, [])
  else (appendCommit r0.1 ps r.1 r.2, r.2)

def charListLe : List Char → List Char → Bool
  | [], _ => true
  | _ :: _, [] => false
  | a :: as, b :: bs => if a < b then true else if b < a then false else charListLe as bs

def strLe (a b : String) : Bool := charListLe a.data b.data

def insertSorted (w : String) : List String → List String
  | [] => [w]
  | x :: xs => if strLe w x then w :: x :: xs else x :: insertSorted w xs

/-- Model of Python sorted on a set of strings: the code-point lexicographic
sorted arrangement (insertion sort; on duplicate-free input, the sort
algorithm is irrelevant to the result). -/
def sortStrings : List String → List String
  | [] => []
  | w :: ws => insertSorted w (sortStrings ws)

/-- settings.py lines 79-87: resolve the active key of a scope in a document,
canonical server key first, then each alias of expand_keys in order. -/
def findTargetKey (doc : List (String × JVal)) (scope : SettingScope) : Option String :=
  if (alistFind doc scope.server_key).isSome then some scope.server_key
  else scope.expand_keys.find? (fun k => (alistFind doc k).isSome)

/-- The marker test of expand_settings (line 97): a single-element list whose
sole string element starts with ":"; yields the path part (items[0][1:]). -/
def markerPath (items : List JVal) : Option String :=
  match items with
  | [.str s] => if startswith s ":" then some (String.mk (s.data.drop 1)) else none
  | _ => none

/-- The per-language loop of expand_settings (lines 94-101): marker-form entry
lists are replaced by the sorted word list read through the cache; everything
else is kept as is. -/
def expandCfgLoop (st : St) : List (String × JVal) → St × List (String × JVal)
  | [] => (st, [])
  | (lang, items) :: rest =>
    match markerPath (as_list items) with
    | some fps =>
      let r := ensure_cache_loaded st fps
      let r' := expandCfgLoop r.1 rest
      (r'.1, (lang, JVal.list ((sortStrings r.2).map JVal.str)) :: r'.2)
    | none =>
      let r' := expandCfgLoop st rest
      (r'.1, (lang, items) :: r'.2)

/-- One scope pass of expand_settings (lines 78-103). -/
def expandScope (st : St) (doc : List (String × JVal)) (scope : SettingScope) :
    St × List (String × JVal) :=
  match findTargetKey doc scope with
  | none => (st, doc)
  | some k =>
    let r := expandCfgLoop st (as_dict (jGet doc k))
    (r.1, alistSet doc k (JVal.dict r.2))

/-- settings.py lines 66-105: expand_settings.  The initial copy.deepcopy is
the identity in the pure model. -/
def expand_settings (st : St) (server_settings : List (String × JVal)) :
    St × List (String × JVal) :=
  SCOPES.foldl (fun acc scope => expandScope acc.1 acc.2 scope) (st, server_settings)

/-- The loop body of _merge_lists (lines 280-287), threading out and seen. -/
def mergeLoop (out seen : List String) : List String → List String
  | [] => out
  | x :: rest =>
    if seen.contains x then mergeLoop out seen rest
    else mergeLoop (out ++ [x]) (seen ++ [x]) rest

/-- settings.py lines 279-287: _merge_lists. -/
def merge_lists (existing incoming : List String) : List String :=
  mergeLoop existing existing incoming

/-- settings.py lines 202-205: _persist_settings — write the server settings
back under the "settings" key and call sublime.save_settings. -/
def persist_settings (env : Env) (server_settings : List (String × JVal)) : Env :=
  { env with store := alistSet env.store "settings" (JVal.dict server_settings),
             saves := env.saves + 1 }

/-- The per-language loop of _update_settings_plain (lines 186-196). -/
def plainLoop (target : List (String × JVal)) (changed : Bool) :
    List (String × JVal) → List (String × JVal) × Bool
  | [] => (target, changed)
  | (lang, items) :: rest =>
    let existing := filterStr (as_list (jGet target lang))
    let incoming := filterStr (as_list items)
    let merged := merge_lists existing incoming
    if merged = existing then plainLoop target changed rest
    else plainLoop (alistSet target lang (JVal.list (merged.map JVal.str))) true rest

/-- settings.py lines 178-200: _update_settings_plain. -/
def update_settings_plain (env : Env) (key : String) (value : JVal) : Env :=
  let server_settings := as_dict (settingsGet env.store "settings")
  let r := plainLoop (as_dict (jGet server_settings key)) false (as_dict value)
  if r.2 then persist_settings env (alistSet server_settings key (JVal.dict r.1))
  else env

/-- settings.py lines 298-300: _is_external_marker. -/
def is_external_marker (v : String) : Bool := startswith v ":" && v.data.length > 1

/-- settings.py lines 302-304: _create_marker. -/
def create_marker (p : FPath) : String := ":" ++ pathStr p

/-- settings.py lines 214-222: _get_external_dir. -/
def get_external_dir (store : List (String × JVal)) (scope : SettingScope) : FPath :=
  match settingsGet store scope.dir_key with
  | .str raw =>
    if (strip raw).data.isEmpty then
      packagesPath ++ ["User", "LSP-ltex-plus", scope.default_subdir]
    else
      let p := parsePath (expanduser (expandvars (strip raw)))
      if isAbsolutePath p then p else packagesPath ++ ["User"] ++ p
  | _ => packagesPath ++ ["User", "LSP-ltex-plus", scope.default_subdir]

/-- settings.py lines 207-212: _get_active_dict_path. -/
def get_active_dict_path (store : List (String × JVal)) (scope : SettingScope)
    (lang : String) : FPath :=
  get_external_dir store scope ++ [formatLang scope.file_template (safeLang lang)]

/-- settings.py lines 306-308: _external_enabled. -/
def external_enabled (store : List (String × JVal)) (scope : SettingScope) : Bool :=
  truthy (settingsGet store scope.enable_key)

/-- One iteration of the per-language loop of _update_dictionary_external
(lines 145-169): processes a single (language, items) pair, returning the
updated environment, working dictionary config, and changed / words-added
flags.  A language with no non-empty string entry is skipped. -/
def extStep (scope : SettingScope) (env : Env) (dictCfg : List (String × JVal))
    (changed wordsAdded : Bool) (lang : String) (items : JVal) :
    Env × List (String × JVal) × Bool × Bool :=
  let incoming := filterStr (as_list items)
  if incoming = [] then (env, dictCfg, changed, wordsAdded)
  else
    let dictPath := get_active_dict_path env.store scope lang
    let ra := append_words_to_file env.st dictPath incoming
    let wa := wordsAdded || !ra.2.isEmpty
    let existingList := filterStr (as_list (jGet dictCfg lang))
    let embedded := existingList.filter (fun x => !is_external_marker x)
    let st2 := if embedded = [] then ra.1 else (append_words_to_file ra.1 dictPath embedded).1
    let env2 := { env with st := st2 }
    let marker := create_marker dictPath
    if existingList = [marker] then (env2, dictCfg, changed, wa)
    else (env2, alistSet dictCfg lang (JVal.list [JVal.str marker]), true, wa)

/-- The for-loop of _update_dictionary_external, folding extStep over the
incoming language map. -/
def extLoop (scope : SettingScope) (env : Env) (dictCfg : List (String × JVal))
    (changed wordsAdded : Bool) :
    List (String × JVal) → Env × List (String × JVal) × Bool × Bool
  | [] => (env, dictCfg, changed, wordsAdded)
  | (lang, items) :: rest =>
    let acc := extStep scope env dictCfg changed wordsAdded lang items
    extLoop scope acc.1 acc.2.1 acc.2.2.1 acc.2.2.2 rest

/-- settings.py lines 128-176: _update_dictionary_external. -/
def update_dictionary_external (env : Env) (scope : SettingScope) (value : JVal) :
    Env × Bool :=
  let server_settings := as_dict (settingsGet env.store "settings")
  let r := extLoop scope env (as_dict (jGet server_settings scope.server_key))
             false false (as_dict value)
  if r.2.2.1 then
    (persist_settings r.1 (alistSet server_settings scope.server_key (JVal.dict r.2.1)), false)
  else (r.1, r.2.2.2)

/-- settings.py line 116: next((s for s in _SCOPES if s.server_key == key), None). -/
def findScope (key : String) : Option SettingScope :=
  SCOPES.find? (fun s => s.server_key == key)

/-- settings.py lines 107-124: update_from_code_action.  Returns the updated
environment and the manual-notification flag. -/
def update_from_code_action (env : Env) (key : String) (value : JVal) : Env × Bool :=
  match findScope key with
  | some scope =>
    if external_enabled env.store scope then update_dictionary_external env scope value
    else (update_settings_plain env key value, false)
  | none => (update_settings_plain env key value, false)

/-! ### Derived notions used by the claims -/

/-- The words the next load would serve for a path: the cached list when the
stored mtime matches the file, otherwise the parse of the current content. -/
def cacheWords (st : St) (ps : String) : List String :=
  match alistFind st.cache ps with
  | some e => e.words
  | none => []

def cachedMtime (st : St) (ps : String) : Option Int :=
  (alistFind st.cache ps).map (fun e => e.mtime)

/-- Per-path cache coherence: any cache entry whose stored mtime matches the
file's current mtime holds exactly the parse of the current content.  Every
state reachable through this module's operations satisfies it. -/
def pathCoherent (st : St) (ps : String) : Bool :=
  match alistFind st.cache ps with
  | none => true
  | some e => !(e.mtime == curMtime st ps) || e.words == parseWords (contentChars st ps)

/-- Well-formed word-file content: empty, or terminated by a newline — the
shape of every file this system writes (each entry is written as its own
LF-terminated line). -/
def contentWF (st : St) (ps : String) : Bool :=
  match fileFind st ps with
  | none => true
  | some fe => fe.content.isEmpty || fe.content.getLast? == some '\n'

/-- A word as the word-file format stores it: strip-invariant, non-empty, not
a comment, and without a line terminator. -/
def validWord (w : String) : Bool :=
  strip w == w && !w.data.isEmpty && !startswith w "#" &&
    !w.data.contains '\n' && !w.data.contains '\r'

def validWords (ws : List String) : Bool := ws.all validWord

/-- The spec's description of the merge: exactly the incoming entries not
already present (in the existing list or earlier in the result), appended in
their given order. -/
def novelSpec (present : List String) : List String → List String
  | [] => []
  | x :: rest =>
    if present.contains x then novelSpec present rest
    else x :: novelSpec (present ++ [x]) rest

/-- The stored server settings mapping (the "settings" key of the store). -/
def storedServerSettings (env : Env) : List (String × JVal) :=
  as_dict (settingsGet env.store "settings")

/-- The stored per-scope mapping under an arbitrary key (line 183). -/
def storedTarget (env : Env) (key : String) : List (String × JVal) :=
  as_dict (jGet (storedServerSettings env) key)

/-- The existing inline list of a language under a raw key (line 190). -/
def existingInline (env : Env) (key lang : String) : List String :=
  filterStr (as_list (jGet (storedTarget env key) lang))

/-- Whether the plain-merge path changes some language's list: the loop's
changed flag, expressed per language against the original stored target. -/
def plainChanged (env : Env) (key : String) (value : JVal) : Bool :=
  (as_dict value).any (fun e =>
    !(merge_lists (existingInline env key e.1) (filterStr (as_list e.2)) ==
      existingInline env key e.1))

/-- The stored dictionary configuration of a scope (lines 134-140). -/
def storedCfg (env : Env) (scope : SettingScope) : List (String × JVal) :=
  as_dict (jGet (as_dict (settingsGet env.store "settings")) scope.server_key)

/-- existing list of a language (line 159). -/
def existingListOf (env : Env) (scope : SettingScope) (lang : String) : List String :=
  filterStr (as_list (jGet (storedCfg env scope) lang))

/-- embedded words of a language (line 160). -/
def embeddedOf (env : Env) (scope : SettingScope) (lang : String) : List String :=
  (existingListOf env scope lang).filter (fun x => !is_external_marker x)

/-- C2's precondition: every targeted language (one with at least one
non-empty incoming string) already stores exactly the single-element canonical
marker list for its computed file path. -/
def markerModeB (scope : SettingScope) (store : List (String × JVal))
    (dictCfg : List (String × JVal)) (entries : List (String × JVal)) : Bool :=
  entries.all (fun e =>
    (filterStr (as_list e.2)).isEmpty ||
      filterStr (as_list (jGet dictCfg e.1)) ==
        [create_marker (get_active_dict_path store scope e.1)])

/-- C7's precondition on a candidate batch: every entry is blank after
stripping, a comment, already in the given word set, or a duplicate (after
stripping) of an earlier entry of the same call. -/
def allRedundant (s : List String) (prev : List String) : List String → Bool
  | [] => true
  | w :: rest =>
    ((strip w).data.isEmpty || startswith (strip w) "#" || s.contains (strip w) ||
      prev.contains (strip w)) &&
    allRedundant s (prev ++ [strip w]) rest

/-- C3/C10's route condition: the scope key is unknown, or known with the
external-files flag disabled. -/
def plainRouteB (store : List (String × JVal)) (key : String) : Bool :=
  match findScope key with
  | some s => !external_enabled store s
  | none => true

/-- C4's hypothesis: at each scope's active key (if any) the document holds a
mapping, none of whose language entry lists is marker-form.  (Per the data
model, a configuration document maps scope keys to mappings from language tags
to entry lists; the marker test is the one of expand_settings.) -/
def cleanCfgVal (v : JVal) : Bool :=
  match v with
  | .dict cfg => cfg.all (fun e => (markerPath (as_list e.2)).isNone)
  | _ => false

def scopeClean (doc : List (String × JVal)) (scope : SettingScope) : Bool :=
  match findTargetKey doc scope with
  | none => true
  | some k => cleanCfgVal (jGet doc k)

def noMarkerDoc (doc : List (String × JVal)) : Bool :=
  SCOPES.all (scopeClean doc)

/-- Glue of two split results across a concatenation point: the last chunk of
the first split merges with the first chunk of the second. -/
def glueSplits : List (List Char) → List (List Char) → List (List Char)
  | [l], h :: t => (l ++ h) :: t
  | a :: rest, ys => a :: glueSplits rest ys
  | [], ys => ys

/-- Length of a file's content (0 when absent); appends strictly increase it,
nothing ever decreases it. -/
def contentLen (st : St) (ps : String) : Nat := (contentChars st ps).length

/-- The state component of one per-language iteration of
_update_dictionary_external, as a pure function of the store (read-only
inside the loop), the filesystem state, and the working configuration. -/
def extStepSt (scope : SettingScope) (store : List (String × JVal)) (st : St)
    (cfg : List (String × JVal)) (lang : String) (items : JVal) : St :=
  let incoming := filterStr (as_list items)
  if incoming = [] then st
  else
    let dictPath := get_active_dict_path store scope lang
    let ra := append_words_to_file st dictPath incoming
    let existingList := filterStr (as_list (jGet cfg lang))
    let embedded := existingList.filter (fun x => !is_external_marker x)
    if embedded = [] then ra.1 else (append_words_to_file ra.1 dictPath embedded).1

/-- The non-state components (working configuration, changed flag,
words-added flag) of one per-language iteration, as a pure function. -/
def extStepRes (scope : SettingScope) (store : List (String × JVal)) (st : St)
    (cfg : List (String × JVal)) (ch wa : Bool) (lang : String) (items : JVal) :
    List (String × JVal) × Bool × Bool :=
  let incoming := filterStr (as_list items)
  if incoming = [] then (cfg, ch, wa)
  else
    let dictPath := get_active_dict_path store scope lang
    let ra := append_words_to_file st dictPath incoming
    let wa2 := wa || !ra.2.isEmpty
    let existingList := filterStr (as_list (jGet cfg lang))
    let marker := create_marker dictPath
    if existingList = [marker] then (cfg, ch, wa2)
    else (alistSet cfg lang (JVal.list [JVal.str marker]), true, wa2)

/-- The per-language loop of _update_dictionary_external as a pure fold over
(state, configuration, changed, wordsAdded): the environment record only
contributes its store (never written inside the loop) and its state. -/
def extPure (scope : SettingScope) (store : List (String × JVal)) :
    St × List (String × JVal) × Bool × Bool → List (String × JVal) →
      St × List (String × JVal) × Bool × Bool
  | acc, [] => acc
  | (st, cfg, ch, wa), (lang, items) :: rest =>
    extPure scope store
      (extStepSt scope store st cfg lang items,
       extStepRes scope store st cfg ch wa lang items) rest

/-! ### Association-list lemmas -/

theorem alistFind_set_self {α : Type} (l : List (String × α)) (k : String) (v : α) :
    alistFind (alistSet l k v) k = some v := by
  induction l with
  | nil => simp [alistSet, alistFind]
  | cons h t ih =>
    obtain ⟨k', v'⟩ := h
    by_cases hk : k' = k
    · simp [alistSet, hk, alistFind]
    · simp [alistSet, hk, alistFind, ih]

theorem alistFind_set_ne {α : Type} (l : List (String × α)) (k k' : String) (v : α)
    (h : k' ≠ k) : alistFind (alistSet l k v) k' = alistFind l k' := by
  have h' : k ≠ k' := Ne.symm h
  induction l with
  | nil => simp [alistSet, alistFind, h']
  | cons hd t ih =>
    obtain ⟨a, b⟩ := hd
    by_cases ha : a = k
    · subst ha
      simp [alistSet, alistFind, h']
    · simp [alistSet, ha, alistFind, ih]

theorem alistSet_of_find_eq {α : Type} (l : List (String × α)) (k : String) (v : α)
    (h : alistFind l k = some v) : alistSet l k v = l := by
  induction l with
  | nil => simp [alistFind] at h
  | cons hd t ih =>
    obtain ⟨a, b⟩ := hd
    by_cases ha : a = k
    · simp only [alistFind, ha, if_pos] at h
      simp only [Option.some.injEq] at h
      simp [alistSet, ha, h]
    · simp only [alistFind, ha, if_neg, ite_false] at h
      simp [alistSet, ha, ih h]

theorem contains_iff_mem {α : Type} [BEq α] [LawfulBEq α] (l : List α) (x : α) :
    l.contains x = true ↔ x ∈ l := by
  induction l with
  | nil => simp
  | cons a t ih =>
    simp only [List.contains_cons, Bool.or_eq_true, beq_iff_eq, List.mem_cons, ih]

theorem skipWord_true_iff (s : List String) (w' : String) :
    skipWord s w' = true ↔
      (w'.data.isEmpty = true ∨ startswith w' "#" = true ∨ w' ∈ s) := by
  simp [skipWord, Bool.or_eq_true, contains_iff_mem, or_assoc]

/-! ### appendLoop lemmas -/

theorem validWord_parts (w : String) (h : validWord w = true) :
    strip w = w ∧ w.data.isEmpty = false ∧ startswith w "#" = false := by
  simp only [validWord, Bool.and_eq_true, beq_iff_eq, Bool.not_eq_true'] at h
  exact ⟨h.1.1.1.1, h.1.1.1.2, h.1.1.2⟩

theorem validWords_parts (ws : List String) (h : validWords ws = true) :
    ∀ w ∈ ws, validWord w = true := by
  intro w hw
  exact List.all_eq_true.mp h w hw

theorem skipWord_of_valid (s : List String) (w : String) (hval : validWord w = true) :
    skipWord s w = (s.contains w) := by
  have hw := validWord_parts w hval
  simp [skipWord, hw.2.1, hw.2.2]

theorem appendLoop_fst (ws : List String) :
    ∀ s, (appendLoop s ws).1 = s ++ (appendLoop s ws).2 := by
  induction ws with
  | nil => intro s; simp [appendLoop]
  | cons w rest ih =>
    intro s
    cases h : skipWord s (strip w) with
    | true => simp [appendLoop, h, ih]
    | false =>
      simp only [appendLoop, h, Bool.false_eq_true, if_false]
      simp [ih (s ++ [strip w]), List.append_assoc]

theorem appendLoop_added_fresh (ws : List String) :
    ∀ s, (∀ x ∈ (appendLoop s ws).2, x ∉ s) ∧ (appendLoop s ws).2.Nodup := by
  induction ws with
  | nil => intro s; simp [appendLoop]
  | cons w rest ih =>
    intro s
    cases h : skipWord s (strip w) with
    | true => simpa [appendLoop, h] using ih s
    | false =>
      obtain ⟨hfresh, hnd⟩ := ih (s ++ [strip w])
      have hns : strip w ∉ s := by
        intro hmem
        have ht : skipWord s (strip w) = true :=
          (skipWord_true_iff _ _).mpr (Or.inr (Or.inr hmem))
        rw [ht] at h
        cases h
      have hunf : (appendLoop s (w :: rest)).2 =
          strip w :: (appendLoop (s ++ [strip w]) rest).2 := by
        simp [appendLoop, h]
      rw [hunf]
      constructor
      · intro x hx
        rcases List.mem_cons.mp hx with rfl | hx2
        · exact hns
        · intro hxs
          exact hfresh x hx2 (by simp [hxs])
      · exact List.nodup_cons.mpr ⟨fun hmem => hfresh _ hmem (by simp), hnd⟩

theorem appendLoop_added_mem (ws : List String) (hv : validWords ws = true) :
    ∀ s x, x ∈ (appendLoop s ws).2 ↔ x ∈ ws ∧ x ∉ s := by
  induction ws with
  | nil => intro s x; simp [appendLoop]
  | cons w rest ih =>
    intro s x
    have hw := validWord_parts w (validWords_parts _ hv w (by simp))
    have hrest : validWords rest = true := by
      simp only [validWords, List.all_cons, Bool.and_eq_true] at hv
      exact hv.2
    by_cases hmem : w ∈ s
    · have h : skipWord s (strip w) = true := by
        rw [hw.1]
        exact (skipWord_true_iff _ _).mpr (Or.inr (Or.inr hmem))
      rw [show appendLoop s (w :: rest) = appendLoop s rest by simp [appendLoop, h]]
      rw [ih hrest s x]
      constructor
      · rintro ⟨hx, hxs⟩; exact ⟨List.mem_cons_of_mem _ hx, hxs⟩
      · rintro ⟨hx, hxs⟩
        rcases List.mem_cons.mp hx with rfl | hx
        · exact absurd hmem hxs
        · exact ⟨hx, hxs⟩
    · have h : skipWord s (strip w) = false := by
        rw [hw.1, skipWord_of_valid s w (validWords_parts _ hv w (by simp))]
        cases hcc : s.contains w
        · rfl
        · exact absurd ((contains_iff_mem s w).mp hcc) hmem
      have hunf : (appendLoop s (w :: rest)).2 =
          strip w :: (appendLoop (s ++ [strip w]) rest).2 := by
        simp [appendLoop, h]
      rw [hunf, hw.1, List.mem_cons, ih hrest (s ++ [w]) x]
      constructor
      · rintro (rfl | ⟨hx, hxs⟩)
        · exact ⟨by simp, hmem⟩
        · exact ⟨List.mem_cons_of_mem _ hx, fun hxin => hxs (by simp [hxin])⟩
      · rintro ⟨hx, hxs⟩
        rcases List.mem_cons.mp hx with rfl | hx
        · exact Or.inl rfl
        · by_cases hxw : x = w
          · exact Or.inl hxw
          · refine Or.inr ⟨hx, ?_⟩
            simp [hxs, hxw]

theorem appendLoop_fresh_all (ws : List String) (hv : validWords ws = true)
    (hnd : ws.Nodup) : ∀ s, (∀ x ∈ ws, x ∉ s) → appendLoop s ws = (s ++ ws, ws) := by
  induction ws with
  | nil => intro s _; simp [appendLoop]
  | cons w rest ih =>
    intro s hdisj
    have hw := validWord_parts w (validWords_parts _ hv w (by simp))
    have hrest : validWords rest = true := by
      simp only [validWords, List.all_cons, Bool.and_eq_true] at hv
      exact hv.2
    have h : skipWord s w = false := by
      rw [skipWord_of_valid s w (validWords_parts _ hv w (by simp))]
      cases hcc : s.contains w
      · rfl
      · exact absurd ((contains_iff_mem s w).mp hcc) (hdisj w (by simp))
    have hnd' := List.nodup_cons.mp hnd
    have hrec := ih hrest hnd'.2 (s ++ [w]) (by
      intro x hx
      simp only [List.mem_append, List.mem_singleton]
      rintro (hxs | rfl)
      · exact hdisj x (by simp [hx]) hxs
      · exact hnd'.1 hx)
    simp [appendLoop, hw.1, h, hrec, List.append_assoc]

theorem appendLoop_redundant (ws : List String) :
    ∀ s' s prev, allRedundant s prev ws = true → (∀ x ∈ s, x ∈ s') →
      (∀ p ∈ prev, p.data.isEmpty = true ∨ startswith p "#" = true ∨ p ∈ s') →
      appendLoop s' ws = (s', []) := by
  induction ws with
  | nil => intro s' s prev _ _ _; simp [appendLoop]
  | cons w rest ih =>
    intro s' s prev hred hss hprev
    simp only [allRedundant, Bool.and_eq_true, Bool.or_eq_true] at hred
    obtain ⟨hcase, hrest⟩ := hred
    have hinv : (strip w).data.isEmpty = true ∨ startswith (strip w) "#" = true ∨
        strip w ∈ s' := by
      rcases hcase with ((he | hh) | hs) | hp
      · exact Or.inl he
      · exact Or.inr (Or.inl hh)
      · exact Or.inr (Or.inr (hss _ ((contains_iff_mem s (strip w)).mp hs)))
      · exact hprev _ ((contains_iff_mem prev (strip w)).mp hp)
    have hskip : skipWord s' (strip w) = true := (skipWord_true_iff _ _).mpr hinv
    have hstep : appendLoop s' (w :: rest) = appendLoop s' rest := by
      simp [appendLoop, hskip]
    rw [hstep]
    refine ih s' s (prev ++ [strip w]) hrest hss ?_
    intro p hp
    rcases List.mem_append.mp hp with hp | hp
    · exact hprev p hp
    · simp only [List.mem_singleton] at hp
      subst hp
      exact hinv

/-! ### Line-splitting lemmas -/

theorem splitOnChar_ne_nil (sep : Char) (l : List Char) : splitOnChar sep l ≠ [] := by
  cases l with
  | nil => simp [splitOnChar]
  | cons c rest =>
    by_cases h : c = sep
    · simp [splitOnChar, h]
    · cases hr : splitOnChar sep rest with
      | nil => simp [splitOnChar, h, hr]
      | cons a as => simp [splitOnChar, h, hr]

theorem glueSplits_cons_ne (a : List Char) (rest ys : List (List Char)) (h : rest ≠ []) :
    glueSplits (a :: rest) ys = a :: glueSplits rest ys := by
  cases rest with
  | nil => exact absurd rfl h
  | cons r rs => cases ys <;> rfl

theorem splitOnChar_append (sep : Char) (x : List Char) :
    ∀ y, splitOnChar sep (x ++ y) = glueSplits (splitOnChar sep x) (splitOnChar sep y) := by
  induction x with
  | nil =>
    intro y
    cases hy : splitOnChar sep y with
    | nil => exact absurd hy (splitOnChar_ne_nil sep y)
    | cons h t => simp [splitOnChar, glueSplits, hy]
  | cons c x' ih =>
    intro y
    by_cases hc : c = sep
    · subst hc
      rw [List.cons_append,
        show splitOnChar c (c :: (x' ++ y)) = [] :: splitOnChar c (x' ++ y) by
          simp [splitOnChar],
        ih y,
        show splitOnChar c (c :: x') = [] :: splitOnChar c x' by simp [splitOnChar]]
      cases hx' : splitOnChar c x' with
      | nil => exact absurd hx' (splitOnChar_ne_nil c x')
      | cons a as =>
        rw [glueSplits_cons_ne [] (a :: as) (splitOnChar c y) (by simp)]
    · cases hx' : splitOnChar sep x' with
      | nil => exact absurd hx' (splitOnChar_ne_nil sep x')
      | cons a as =>
        have h2 : splitOnChar sep (c :: x') = (c :: a) :: as := by
          simp [splitOnChar, hc, hx']
        cases as with
        | nil =>
          cases hy : splitOnChar sep y with
          | nil => exact absurd hy (splitOnChar_ne_nil sep y)
          | cons h t =>
            have hxy : splitOnChar sep (x' ++ y) = (a ++ h) :: t := by
              rw [ih y, hx', hy]
              rfl
            rw [List.cons_append,
              show splitOnChar sep (c :: (x' ++ y)) = (c :: (a ++ h)) :: t by
                simp [splitOnChar, hc, hxy],
              h2]
            rfl
        | cons b bs =>
          have hxy : splitOnChar sep (x' ++ y) =
              a :: glueSplits (b :: bs) (splitOnChar sep y) := by
            rw [ih y, hx', glueSplits_cons_ne a (b :: bs) (splitOnChar sep y) (by simp)]
          rw [List.cons_append,
            show splitOnChar sep (c :: (x' ++ y)) =
                (c :: a) :: glueSplits (b :: bs) (splitOnChar sep y) by
              simp [splitOnChar, hc, hxy],
            h2, glueSplits_cons_ne (c :: a) (b :: bs) (splitOnChar sep y) (by simp)]

theorem splitOnChar_eq_single_iff (sep : Char) (l : List Char) :
    splitOnChar sep l = [[]] ↔ l = [] := by
  constructor
  · intro h
    cases l with
    | nil => rfl
    | cons c rest =>
      by_cases hc : c = sep
      · rw [show splitOnChar sep (c :: rest) = [] :: splitOnChar sep rest by
          simp [splitOnChar, hc]] at h
        have := splitOnChar_ne_nil sep rest
        simp only [List.cons.injEq] at h
        exact absurd h.2 this
      · cases hr : splitOnChar sep rest with
        | nil => exact absurd hr (splitOnChar_ne_nil sep rest)
        | cons a as =>
          rw [show splitOnChar sep (c :: rest) = (c :: a) :: as by
            simp [splitOnChar, hc, hr]] at h
          simp at h
  · rintro rfl
    rfl

theorem splitOnChar_terminated (sep : Char) :
    ∀ l : List Char, l.getLast? = some sep → ∃ L, splitOnChar sep l = L ++ [[]] := by
  intro l
  induction l with
  | nil => intro h; simp at h
  | cons c rest ih =>
    intro h
    cases rest with
    | nil =>
      simp only [List.getLast?_singleton, Option.some.injEq] at h
      subst h
      exact ⟨[[]], by simp [splitOnChar]⟩
    | cons d t =>
      have hlast : (d :: t).getLast? = some sep := by
        rwa [List.getLast?_cons_cons] at h
      obtain ⟨L', hL'⟩ := ih hlast
      by_cases hc : c = sep
      · refine ⟨[] :: L', ?_⟩
        rw [show splitOnChar sep (c :: d :: t) = [] :: splitOnChar sep (d :: t) by
          simp [splitOnChar, hc], hL']
        rfl
      · cases L' with
        | nil =>
          have : (d :: t : List Char) = [] :=
            (splitOnChar_eq_single_iff sep (d :: t)).mp (by simpa using hL')
          cases this
        | cons h' L'' =>
          refine ⟨(c :: h') :: L'', ?_⟩
          rw [show splitOnChar sep (c :: d :: t) =
              match splitOnChar sep (d :: t) with
              | [] => [[c]]
              | l :: ls => (c :: l) :: ls by simp [splitOnChar, hc], hL']
          rfl

theorem glueSplits_term (ys : List (List Char)) (hys : ys ≠ []) :
    ∀ L, glueSplits (L ++ [[]]) ys = L ++ ys := by
  intro L
  induction L with
  | nil =>
    cases ys with
    | nil => exact absurd rfl hys
    | cons h t => simp [glueSplits]
  | cons a L' ih =>
    rw [List.cons_append, glueSplits_cons_ne _ _ _ (by simp), ih]
    rfl

theorem splitOnChar_nosep_append (sep : Char) (l : List Char)
    (hl : ∀ c ∈ l, c ≠ sep) (r : List Char) :
    splitOnChar sep (l ++ sep :: r) = l :: splitOnChar sep r := by
  induction l with
  | nil => simp [splitOnChar]
  | cons c l' ih =>
    have hc : c ≠ sep := hl c (by simp)
    have hrec := ih (fun x hx => hl x (by simp [hx]))
    rw [List.cons_append,
      show splitOnChar sep (c :: (l' ++ sep :: r)) =
        match splitOnChar sep (l' ++ sep :: r) with
        | [] => [[c]]
        | x :: xs => (c :: x) :: xs by simp [splitOnChar, hc], hrec]

theorem linesChars_split (ws : List String)
    (hw : ∀ w ∈ ws, w.data.contains '\n' = false) :
    splitNl (linesChars ws) = ws.map String.data ++ [[]] := by
  induction ws with
  | nil => rfl
  | cons w rest ih =>
    have hnosep : ∀ c ∈ w.data, c ≠ '\n' := by
      intro c hc he
      subst he
      have := (contains_iff_mem w.data '\n').mpr hc
      rw [hw w (by simp)] at this
      cases this
    have hrec : splitOnChar '\n' (linesChars rest) = List.map String.data rest ++ [[]] :=
      ih (fun x hx => hw x (by simp [hx]))
    show splitOnChar '\n' (w.data ++ '\n' :: linesChars rest) = _
    rw [splitOnChar_nosep_append '\n' w.data hnosep, hrec]
    rfl

/-! ### Word-set and parsing lemmas -/

theorem strMk_data (s : String) : String.mk s.data = s := rfl

theorem mem_insertAbsent (s : List String) (w x : String) :
    x ∈ insertAbsent s w ↔ x ∈ s ∨ x = w := by
  by_cases h : s.contains w = true
  · rw [insertAbsent, if_pos h]
    constructor
    · exact Or.inl
    · rintro (hx | rfl)
      · exact hx
      · exact (contains_iff_mem s x).mp h
  · rw [insertAbsent, if_neg h]
    simp

theorem foldl_insertAbsent_mem (ws : List String) :
    ∀ s x, x ∈ List.foldl insertAbsent s ws ↔ x ∈ s ∨ x ∈ ws := by
  induction ws with
  | nil => intro s x; simp
  | cons w rest ih =>
    intro s x
    rw [List.foldl_cons, ih (insertAbsent s w) x, mem_insertAbsent]
    simp only [List.mem_cons]
    tauto

theorem foldl_insertAbsent_fresh (ws : List String) (hnd : ws.Nodup) :
    ∀ s, (∀ x ∈ ws, x ∉ s) → List.foldl insertAbsent s ws = s ++ ws := by
  induction ws with
  | nil => intro s _; simp
  | cons w rest ih =>
    intro s hfresh
    have hnd' := List.nodup_cons.mp hnd
    have hw : s.contains w = false := by
      cases hc : s.contains w
      · rfl
      · exact absurd ((contains_iff_mem s w).mp hc) (hfresh w (by simp))
    rw [List.foldl_cons, show insertAbsent s w = s ++ [w] by
      rw [insertAbsent, if_neg (by rw [hw]; simp)]]
    rw [ih hnd'.2 (s ++ [w]) (by
      intro x hx
      simp only [List.mem_append, List.mem_singleton]
      rintro (hxs | rfl)
      · exact hfresh x (by simp [hx]) hxs
      · exact hnd'.1 hx)]
    simp

theorem addLine_nil (s : List String) : addLine s [] = s := rfl

theorem foldl_addLine_trailing (L : List (List Char)) (s : List String) :
    List.foldl addLine s (L ++ [[]]) = List.foldl addLine s L := by
  rw [List.foldl_append]
  rfl

theorem foldl_addLine_valid (ws : List String) (hv : validWords ws = true) :
    ∀ s, List.foldl addLine s (ws.map String.data) = List.foldl insertAbsent s ws := by
  induction ws with
  | nil => intro s; rfl
  | cons w rest ih =>
    intro s
    have hw := validWord_parts w (validWords_parts _ hv w (by simp))
    have hrest : validWords rest = true := by
      simp only [validWords, List.all_cons, Bool.and_eq_true] at hv
      exact hv.2
    have hstep : addLine s w.data = insertAbsent s w := by
      rw [addLine, strMk_data]
      simp only [hw.1, hw.2.1, hw.2.2]
      rfl
    rw [List.map_cons, List.foldl_cons, List.foldl_cons, hstep, ih hrest]

/-- Appending LF-terminated word lines to well-formed content parses to the
old words extended, in order, by the new entries (absent file reads as empty
content, so the lemma also covers file creation). -/
theorem parse_append (content : List Char)
    (hwf : content = [] ∨ content.getLast? = some '\n')
    (ws : List String) (hnl : ∀ w ∈ ws, w.data.contains '\n' = false)
    (hv : validWords ws = true) :
    parseWords (content ++ linesChars ws) =
      List.foldl insertAbsent (parseWords content) ws := by
  obtain ⟨L, hL⟩ : ∃ L, splitNl content = L ++ [[]] := by
    rcases hwf with rfl | hlast
    · exact ⟨[], rfl⟩
    · exact splitOnChar_terminated '\n' content hlast
  have hsplit : splitNl (content ++ linesChars ws) =
      L ++ (ws.map String.data ++ [[]]) := by
    show splitOnChar '\n' (content ++ linesChars ws) = _
    rw [splitOnChar_append '\n' content (linesChars ws),
      show glueSplits (splitOnChar '\n' content) (splitOnChar '\n' (linesChars ws)) =
        glueSplits (splitNl content) (splitNl (linesChars ws)) from rfl,
      hL, linesChars_split ws hnl, glueSplits_term _ (by simp)]
  have hbase : parseWords content = L.foldl addLine [] := by
    show (splitNl content).foldl addLine [] = _
    rw [hL, foldl_addLine_trailing]
  show (splitNl (content ++ linesChars ws)).foldl addLine [] = _
  rw [hsplit, List.foldl_append, foldl_addLine_trailing, foldl_addLine_valid ws hv, hbase]

/-! ### mkdir and ensure_cache_loaded state lemmas -/

theorem mkdir_filesEq (st : St) (d : FPath) : (mkdir_parents st d).fs.files = st.fs.files := rfl

theorem mkdir_cacheEq (st : St) (d : FPath) : (mkdir_parents st d).cache = st.cache := rfl

theorem mkdir_contentChars (st : St) (d : FPath) (ps : String) :
    contentChars (mkdir_parents st d) ps = contentChars st ps := rfl

theorem mkdir_curMtime (st : St) (d : FPath) (ps : String) :
    curMtime (mkdir_parents st d) ps = curMtime st ps := rfl

theorem mkdir_pathCoherent (st : St) (d : FPath) (ps : String) :
    pathCoherent (mkdir_parents st d) ps = pathCoherent st ps := rfl

theorem mkdir_contentWF (st : St) (d : FPath) (ps : String) :
    contentWF (mkdir_parents st d) ps = contentWF st ps := rfl

theorem parseWords_nilContent : parseWords [] = [] := rfl

theorem ensure_hit (st : St) (ps : String) (e : CacheEntry)
    (hf : alistFind st.cache ps = some e) (hm : e.mtime = curMtime st ps) :
    ensure_cache_loaded st ps = (st, e.words) := by
  simp [ensure_cache_loaded, hf, hm]

theorem ensure_fs (st : St) (ps : String) : (ensure_cache_loaded st ps).1.fs = st.fs := by
  simp only [ensure_cache_loaded]
  cases h : alistFind st.cache ps with
  | none => simp [reloadCache]
  | some e =>
    by_cases hm : e.mtime = curMtime st ps
    · simp [hm]
    · simp [hm, reloadCache]

theorem ensure_contentChars (st : St) (ps qs : String) :
    contentChars (ensure_cache_loaded st ps).1 qs = contentChars st qs := by
  unfold contentChars fileFind
  rw [ensure_fs]

theorem ensure_curMtime (st : St) (ps qs : String) :
    curMtime (ensure_cache_loaded st ps).1 qs = curMtime st qs := by
  unfold curMtime fileFind
  rw [ensure_fs]

theorem ensure_contentWF (st : St) (ps qs : String) :
    contentWF (ensure_cache_loaded st ps).1 qs = contentWF st qs := by
  unfold contentWF fileFind
  rw [ensure_fs]

theorem ensure_filesEq (st : St) (ps : String) :
    (ensure_cache_loaded st ps).1.fs.files = st.fs.files := by
  rw [ensure_fs]

theorem ensure_cache_frame (st : St) (ps qs : String) (h : qs ≠ ps) :
    alistFind (ensure_cache_loaded st ps).1.cache qs = alistFind st.cache qs := by
  simp only [ensure_cache_loaded]
  cases hf : alistFind st.cache ps with
  | none => simp [reloadCache, alistFind_set_ne _ _ _ _ h]
  | some e =>
    by_cases hm : e.mtime = curMtime st ps
    · simp [hm]
    · simp [hm, reloadCache, alistFind_set_ne _ _ _ _ h]

theorem ensure_snd_coherent (st : St) (ps : String) (hcoh : pathCoherent st ps = true) :
    (ensure_cache_loaded st ps).2 = parseWords (contentChars st ps) := by
  simp only [ensure_cache_loaded]
  cases hf : alistFind st.cache ps with
  | none =>
    simp only [reloadCache]
    cases hff : fileFind st ps with
    | none => simp [hff, contentChars, parseWords_nilContent]
    | some fe => simp [hff, contentChars]
  | some e =>
    by_cases hm : e.mtime = curMtime st ps
    · have h1 : pathCoherent st ps =
          (!(e.mtime == curMtime st ps) || e.words == parseWords (contentChars st ps)) := by
        simp [pathCoherent, hf]
      rw [h1, hm] at hcoh
      simp only [beq_self_eq_true, Bool.not_true, Bool.false_or] at hcoh
      simp [hf, hm, eq_of_beq hcoh]
    · simp only [hf, hm, reloadCache]
      cases hff : fileFind st ps with
      | none => simp [hff, hm, contentChars, parseWords_nilContent]
      | some fe => simp [hff, hm, contentChars]

theorem ensure_cache_self (st : St) (ps : String) :
    alistFind (ensure_cache_loaded st ps).1.cache ps =
      some ⟨curMtime st ps, (ensure_cache_loaded st ps).2⟩ := by
  cases hf : alistFind st.cache ps with
  | none =>
    simp only [ensure_cache_loaded, hf, reloadCache]
    exact alistFind_set_self _ _ _
  | some e =>
    by_cases hm : e.mtime = curMtime st ps
    · obtain ⟨m, w⟩ := e
      simp only at hm
      simp only [ensure_cache_loaded, hf, hm, if_pos]
    · simp only [ensure_cache_loaded, hf, hm, if_neg, ite_false, reloadCache]
      exact alistFind_set_self _ _ _

theorem ensure_fst_eq_iff (st : St) (ps : String) :
    (ensure_cache_loaded st ps).1 = st ↔ cachedMtime st ps = some (curMtime st ps) := by
  constructor
  · intro h
    cases hf : alistFind st.cache ps with
    | none =>
      exfalso
      have h2 := ensure_cache_self st ps
      rw [h, hf] at h2
      cases h2
    | some e =>
      by_cases hm : e.mtime = curMtime st ps
      · simp [cachedMtime, hf, hm]
      · exfalso
        have h2 := ensure_cache_self st ps
        rw [h, hf] at h2
        have h3 : e = ⟨curMtime st ps, (ensure_cache_loaded st ps).2⟩ := by
          simpa using h2
        exact hm (by rw [h3])
  · intro h
    obtain ⟨e, hf, hm⟩ : ∃ e, alistFind st.cache ps = some e ∧
        e.mtime = curMtime st ps := by
      unfold cachedMtime at h
      cases hf : alistFind st.cache ps with
      | none => rw [hf] at h; cases h
      | some e =>
        rw [hf] at h
        exact ⟨e, rfl, by simpa using h⟩
    rw [ensure_hit st ps e hf hm]

/-! ### fsAppendFile lemmas -/

theorem fsAppend_fileFind_self (st : St) (ps : String) (txt : List Char) :
    fileFind (fsAppendFile st ps txt) ps =
      some ⟨contentChars st ps ++ txt, st.fs.clock + 1⟩ := by
  simp only [fileFind, fsAppendFile]
  exact alistFind_set_self _ _ _

theorem fsAppend_contentChars_self (st : St) (ps : String) (txt : List Char) :
    contentChars (fsAppendFile st ps txt) ps = contentChars st ps ++ txt := by
  unfold contentChars
  rw [fsAppend_fileFind_self]
  rfl

theorem fsAppend_fileFind_frame (st : St) (ps : String) (txt : List Char) (qs : String)
    (h : qs ≠ ps) : fileFind (fsAppendFile st ps txt) qs = fileFind st qs := by
  simp only [fileFind, fsAppendFile]
  exact alistFind_set_ne _ _ _ _ h

theorem fsAppend_cacheEq (st : St) (ps : String) (txt : List Char) :
    (fsAppendFile st ps txt).cache = st.cache := rfl

/-! ### misc list helpers -/

theorem linesChars_ne_nil (ws : List String) (h : ws ≠ []) : linesChars ws ≠ [] := by
  cases ws with
  | nil => exact absurd rfl h
  | cons w rest => simp [linesChars]

theorem linesChars_getLast (ws : List String) (h : ws ≠ []) :
    (linesChars ws).getLast? = some '\n' := by
  induction ws with
  | nil => exact absurd rfl h
  | cons w rest ih =>
    show (w.data ++ '\n' :: linesChars rest).getLast? = some '\n'
    rw [List.getLast?_append_of_ne_nil _ (by simp)]
    by_cases hrest : rest = []
    · subst hrest; rfl
    · have hlr := linesChars_ne_nil rest hrest
      rw [show ('\n' :: linesChars rest : List Char) = ['\n'] ++ linesChars rest from rfl,
        List.getLast?_append_of_ne_nil _ hlr]
      exact ih hrest

theorem contentWF_prop (st : St) (ps : String) (h : contentWF st ps = true) :
    contentChars st ps = [] ∨ (contentChars st ps).getLast? = some '\n' := by
  unfold contentWF at h
  unfold contentChars
  cases hf : fileFind st ps with
  | none => exact Or.inl rfl
  | some fe =>
    rw [hf] at h
    simpa [List.isEmpty_iff] using h

theorem validWord_no_nl (w : String) (h : validWord w = true) :
    w.data.contains '\n' = false := by
  simp only [validWord, Bool.and_eq_true, Bool.not_eq_true'] at h
  exact h.1.2

/-! ### appendCommit lemmas -/

theorem fsAppend_curMtime_self (st : St) (ps : String) (txt : List Char) :
    curMtime (fsAppendFile st ps txt) ps = st.fs.clock + 1 := by
  unfold curMtime
  rw [fsAppend_fileFind_self]

theorem appendCommit_fsEq (st : St) (ps : String) (f a : List String) :
    (appendCommit st ps f a).fs = (fsAppendFile st ps (linesChars a)).fs := rfl

theorem appendCommit_contentChars_self (st : St) (ps : String) (f a : List String) :
    contentChars (appendCommit st ps f a) ps = contentChars st ps ++ linesChars a := by
  show contentChars (fsAppendFile st ps (linesChars a)) ps = _
  exact fsAppend_contentChars_self st ps (linesChars a)

theorem appendCommit_contentChars_frame (st : St) (ps : String) (f a : List String)
    (qs : String) (h : qs ≠ ps) :
    fileFind (appendCommit st ps f a) qs = fileFind st qs := by
  show fileFind (fsAppendFile st ps (linesChars a)) qs = _
  exact fsAppend_fileFind_frame st ps (linesChars a) qs h

theorem appendCommit_curMtime_self (st : St) (ps : String) (f a : List String) :
    curMtime (appendCommit st ps f a) ps =
      curMtime (fsAppendFile st ps (linesChars a)) ps := rfl

theorem appendCommit_cache_self (st : St) (ps : String) (f a : List String) :
    alistFind (appendCommit st ps f a).cache ps =
      some ⟨curMtime (fsAppendFile st ps (linesChars a)) ps, f⟩ := by
  simp only [appendCommit]
  exact alistFind_set_self _ _ _

theorem appendCommit_cache_frame (st : St) (ps : String) (f a : List String)
    (qs : String) (h : qs ≠ ps) :
    alistFind (appendCommit st ps f a).cache qs = alistFind st.cache qs := by
  simp only [appendCommit]
  rw [alistFind_set_ne _ _ _ _ h]
  rfl

/-! ### append_words_to_file master lemmas -/

theorem append_eq_nil_case (st : St) (path : FPath) (ws : List String)
    (h : (appendLoop (ensure_cache_loaded (mkdir_parents st path.dropLast)
      (pathStr path)).2 ws).2 = []) :
    append_words_to_file st path ws =
      ((ensure_cache_loaded (mkdir_parents st path.dropLast) (pathStr path)).1, []) := by
  simp only [append_words_to_file]
  rw [if_pos h]

theorem append_eq_commit_case (st : St) (path : FPath) (ws : List String)
    (h : (appendLoop (ensure_cache_loaded (mkdir_parents st path.dropLast)
      (pathStr path)).2 ws).2 ≠ []) :
    append_words_to_file st path ws =
      (appendCommit (ensure_cache_loaded (mkdir_parents st path.dropLast) (pathStr path)).1
        (pathStr path)
        (appendLoop (ensure_cache_loaded (mkdir_parents st path.dropLast)
          (pathStr path)).2 ws).1
        (appendLoop (ensure_cache_loaded (mkdir_parents st path.dropLast)
          (pathStr path)).2 ws).2,
       (appendLoop (ensure_cache_loaded (mkdir_parents st path.dropLast)
          (pathStr path)).2 ws).2) := by
  simp only [append_words_to_file]
  rw [if_neg h]

/-- The full specification of _append_words_to_file on valid words, for a
path whose cache slot is coherent and whose content is well-formed: the added
list is exactly the fresh words, the parsed file grows by exactly them,
coherence and well-formedness are preserved, and the refreshed cache slot
serves the new parse without a re-read. -/
theorem append_spec (st : St) (path : FPath) (ws : List String)
    (hv : validWords ws = true)
    (hcoh : pathCoherent st (pathStr path) = true)
    (hwf : contentWF st (pathStr path) = true) :
    (∀ x, x ∈ (append_words_to_file st path ws).2 ↔
      x ∈ ws ∧ x ∉ parseWords (contentChars st (pathStr path))) ∧
    parseWords (contentChars (append_words_to_file st path ws).1 (pathStr path)) =
      parseWords (contentChars st (pathStr path)) ++ (append_words_to_file st path ws).2 ∧
    pathCoherent (append_words_to_file st path ws).1 (pathStr path) = true ∧
    contentWF (append_words_to_file st path ws).1 (pathStr path) = true ∧
    cacheWords (append_words_to_file st path ws).1 (pathStr path) =
      parseWords (contentChars (append_words_to_file st path ws).1 (pathStr path)) ∧
    cachedMtime (append_words_to_file st path ws).1 (pathStr path) =
      some (curMtime (append_words_to_file st path ws).1 (pathStr path)) := by
  have hcoh1 : pathCoherent (mkdir_parents st path.dropLast) (pathStr path) = true := by
    rw [mkdir_pathCoherent]; exact hcoh
  have hcontent1 : contentChars (mkdir_parents st path.dropLast) (pathStr path) =
      contentChars st (pathStr path) := mkdir_contentChars st _ _
  have hobs : (ensure_cache_loaded (mkdir_parents st path.dropLast) (pathStr path)).2 =
      parseWords (contentChars st (pathStr path)) := by
    rw [ensure_snd_coherent _ _ hcoh1, hcontent1]
  have hmemadd : ∀ x, x ∈ (appendLoop (ensure_cache_loaded (mkdir_parents st path.dropLast)
      (pathStr path)).2 ws).2 ↔ x ∈ ws ∧ x ∉ parseWords (contentChars st (pathStr path)) := by
    intro x
    rw [appendLoop_added_mem ws hv _ x, hobs]
  by_cases hnil : (appendLoop (ensure_cache_loaded (mkdir_parents st path.dropLast)
      (pathStr path)).2 ws).2 = []
  · rw [append_eq_nil_case st path ws hnil]
    have hself := ensure_cache_self (mkdir_parents st path.dropLast) (pathStr path)
    refine ⟨?_, ?_, ?_, ?_, ?_, ?_⟩
    · intro x
      constructor
      · intro hx
        exact absurd hx (List.not_mem_nil x)
      · intro hx
        have h2 := (hmemadd x).mpr hx
        rw [hnil] at h2
        exact absurd h2 (List.not_mem_nil x)
    · rw [ensure_contentChars, hcontent1]
      simp
    · simp [pathCoherent, hself, ensure_curMtime, ensure_contentChars, hcontent1, hobs]
    · rw [ensure_contentWF, mkdir_contentWF]
      exact hwf
    · simp [cacheWords, hself, hobs, ensure_contentChars, hcontent1]
    · simp [cachedMtime, hself, ensure_curMtime]
  · rw [append_eq_commit_case st path ws hnil]
    have haddsub : validWords (appendLoop (ensure_cache_loaded (mkdir_parents st path.dropLast)
        (pathStr path)).2 ws).2 = true := by
      rw [validWords, List.all_eq_true]
      intro x hx
      exact validWords_parts ws hv x ((hmemadd x).mp hx).1
    have hnladd : ∀ w ∈ (appendLoop (ensure_cache_loaded (mkdir_parents st path.dropLast)
        (pathStr path)).2 ws).2, w.data.contains '\n' = false := by
      intro w hw
      exact validWord_no_nl w (validWords_parts _ haddsub w hw)
    have hfreshnd := appendLoop_added_fresh ws
      (ensure_cache_loaded (mkdir_parents st path.dropLast) (pathStr path)).2
    have hparse : parseWords (contentChars st (pathStr path) ++
        linesChars (appendLoop (ensure_cache_loaded (mkdir_parents st path.dropLast)
          (pathStr path)).2 ws).2) =
        parseWords (contentChars st (pathStr path)) ++
          (appendLoop (ensure_cache_loaded (mkdir_parents st path.dropLast)
            (pathStr path)).2 ws).2 := by
      rw [parse_append _ (contentWF_prop st _ hwf) _ hnladd haddsub]
      refine foldl_insertAbsent_fresh _ hfreshnd.2 _ ?_
      intro x hx
      rw [← hobs]
      exact hfreshnd.1 x hx
    have hcontentC : contentChars (appendCommit
        (ensure_cache_loaded (mkdir_parents st path.dropLast) (pathStr path)).1 (pathStr path)
        (appendLoop (ensure_cache_loaded (mkdir_parents st path.dropLast)
          (pathStr path)).2 ws).1
        (appendLoop (ensure_cache_loaded (mkdir_parents st path.dropLast)
          (pathStr path)).2 ws).2) (pathStr path) =
        contentChars st (pathStr path) ++
          linesChars (appendLoop (ensure_cache_loaded (mkdir_parents st path.dropLast)
            (pathStr path)).2 ws).2 := by
      rw [appendCommit_contentChars_self, ensure_contentChars, hcontent1]
    have hfinal : (appendLoop (ensure_cache_loaded (mkdir_parents st path.dropLast)
        (pathStr path)).2 ws).1 =
        parseWords (contentChars st (pathStr path)) ++
          (appendLoop (ensure_cache_loaded (mkdir_parents st path.dropLast)
            (pathStr path)).2 ws).2 := by
      rw [appendLoop_fst, hobs]
    have hcacheC := appendCommit_cache_self
      (ensure_cache_loaded (mkdir_parents st path.dropLast) (pathStr path)).1 (pathStr path)
      (appendLoop (ensure_cache_loaded (mkdir_parents st path.dropLast)
        (pathStr path)).2 ws).1
      (appendLoop (ensure_cache_loaded (mkdir_parents st path.dropLast)
        (pathStr path)).2 ws).2
    refine ⟨?_, ?_, ?_, ?_, ?_, ?_⟩
    · intro x
      exact hmemadd x
    · rw [hcontentC, hparse]
    · simp only [pathCoherent, hcacheC, appendCommit_curMtime_self]
      rw [hcontentC, hparse, ← hfinal]
      simp
    · simp only [contentWF]
      have hff : fileFind (appendCommit
          (ensure_cache_loaded (mkdir_parents st path.dropLast) (pathStr path)).1 (pathStr path)
          (appendLoop (ensure_cache_loaded (mkdir_parents st path.dropLast)
            (pathStr path)).2 ws).1
          (appendLoop (ensure_cache_loaded (mkdir_parents st path.dropLast)
            (pathStr path)).2 ws).2) (pathStr path) =
          some ⟨contentChars (ensure_cache_loaded (mkdir_parents st path.dropLast)
              (pathStr path)).1 (pathStr path) ++
              linesChars (appendLoop (ensure_cache_loaded (mkdir_parents st path.dropLast)
                (pathStr path)).2 ws).2,
            (ensure_cache_loaded (mkdir_parents st path.dropLast)
              (pathStr path)).1.fs.clock + 1⟩ := by
        show fileFind (fsAppendFile _ _ _) _ = _
        exact fsAppend_fileFind_self _ _ _
      rw [hff]
      have hlast : (contentChars (ensure_cache_loaded (mkdir_parents st path.dropLast)
          (pathStr path)).1 (pathStr path) ++
          linesChars (appendLoop (ensure_cache_loaded (mkdir_parents st path.dropLast)
            (pathStr path)).2 ws).2).getLast? = some '\n' := by
        rw [List.getLast?_append_of_ne_nil _ (linesChars_ne_nil _ hnil)]
        exact linesChars_getLast _ hnil
      simp [hlast]
    · simp only [cacheWords, hcacheC]
      rw [hcontentC, hparse, ← hfinal]
    · simp only [cachedMtime, hcacheC, appendCommit_curMtime_self]
      simp

theorem ensure_fileFind (st : St) (ps qs : String) :
    fileFind (ensure_cache_loaded st ps).1 qs = fileFind st qs := by
  unfold fileFind
  rw [ensure_filesEq]

theorem contentChars_congr (st' st : St) (qs : String)
    (h : fileFind st' qs = fileFind st qs) : contentChars st' qs = contentChars st qs := by
  unfold contentChars
  rw [h]

/-- State effects of _append_words_to_file that hold with no hypotheses: an
empty result leaves every file untouched, a non-empty result strictly grows
the target file, all other paths' files and cache slots are untouched, and no
file ever shrinks. -/
theorem append_frame (st : St) (path : FPath) (ws : List String) :
    ((append_words_to_file st path ws).2 = [] →
      (append_words_to_file st path ws).1.fs.files = st.fs.files) ∧
    ((append_words_to_file st path ws).2 ≠ [] →
      contentLen st (pathStr path) <
        contentLen (append_words_to_file st path ws).1 (pathStr path)) ∧
    (∀ qs, qs ≠ pathStr path →
      fileFind (append_words_to_file st path ws).1 qs = fileFind st qs ∧
      alistFind (append_words_to_file st path ws).1.cache qs = alistFind st.cache qs) ∧
    (∀ qs, contentLen st qs ≤ contentLen (append_words_to_file st path ws).1 qs) := by
  by_cases hnil : (appendLoop (ensure_cache_loaded (mkdir_parents st path.dropLast)
      (pathStr path)).2 ws).2 = []
  · rw [append_eq_nil_case st path ws hnil]
    have hfiles : (ensure_cache_loaded (mkdir_parents st path.dropLast)
        (pathStr path)).1.fs.files = st.fs.files := by
      rw [ensure_filesEq, mkdir_filesEq]
    have hfind : ∀ qs, fileFind (ensure_cache_loaded (mkdir_parents st path.dropLast)
        (pathStr path)).1 qs = fileFind st qs := by
      intro qs
      unfold fileFind
      rw [hfiles]
    refine ⟨fun _ => hfiles, ?_, ?_, ?_⟩
    · intro h
      exact absurd rfl h
    · intro qs hqs
      refine ⟨hfind qs, ?_⟩
      rw [ensure_cache_frame _ _ _ hqs, mkdir_cacheEq]
    · intro qs
      rw [contentLen, contentLen, contentChars_congr _ _ _ (hfind qs)]
  · rw [append_eq_commit_case st path ws hnil]
    have hcontentC : contentChars (appendCommit
        (ensure_cache_loaded (mkdir_parents st path.dropLast) (pathStr path)).1 (pathStr path)
        (appendLoop (ensure_cache_loaded (mkdir_parents st path.dropLast)
          (pathStr path)).2 ws).1
        (appendLoop (ensure_cache_loaded (mkdir_parents st path.dropLast)
          (pathStr path)).2 ws).2) (pathStr path) =
        contentChars st (pathStr path) ++
          linesChars (appendLoop (ensure_cache_loaded (mkdir_parents st path.dropLast)
            (pathStr path)).2 ws).2 := by
      rw [appendCommit_contentChars_self, ensure_contentChars, mkdir_contentChars]
    have hstrict : contentLen st (pathStr path) <
        contentLen (appendCommit
          (ensure_cache_loaded (mkdir_parents st path.dropLast) (pathStr path)).1 (pathStr path)
          (appendLoop (ensure_cache_loaded (mkdir_parents st path.dropLast)
            (pathStr path)).2 ws).1
          (appendLoop (ensure_cache_loaded (mkdir_parents st path.dropLast)
            (pathStr path)).2 ws).2) (pathStr path) := by
      rw [contentLen, contentLen, hcontentC, List.length_append]
      have hpos : 0 < (linesChars (appendLoop (ensure_cache_loaded
          (mkdir_parents st path.dropLast) (pathStr path)).2 ws).2).length :=
        List.length_pos.mpr (linesChars_ne_nil _ hnil)
      omega
    have hframe : ∀ qs, qs ≠ pathStr path →
        fileFind (appendCommit
          (ensure_cache_loaded (mkdir_parents st path.dropLast) (pathStr path)).1 (pathStr path)
          (appendLoop (ensure_cache_loaded (mkdir_parents st path.dropLast)
            (pathStr path)).2 ws).1
          (appendLoop (ensure_cache_loaded (mkdir_parents st path.dropLast)
            (pathStr path)).2 ws).2) qs = fileFind st qs := by
      intro qs hqs
      rw [appendCommit_contentChars_frame _ _ _ _ _ hqs, ensure_fileFind]
      rfl
    refine ⟨?_, fun _ => hstrict, ?_, ?_⟩
    · intro h
      exact absurd h hnil
    · intro qs hqs
      refine ⟨hframe qs hqs, ?_⟩
      rw [appendCommit_cache_frame _ _ _ _ _ hqs, ensure_cache_frame _ _ _ hqs, mkdir_cacheEq]
    · intro qs
      by_cases hqs : qs = pathStr path
      · subst hqs
        exact Nat.le_of_lt hstrict
      · rw [contentLen, contentLen, contentChars_congr _ _ _ (hframe qs hqs)]

/-! ### Sanitization lemmas -/

theorem collapseRuns_allowed (l : List Char) :
    ∀ b, ∀ c ∈ collapseRuns b l, isAllowedLangChar c = true := by
  induction l with
  | nil => intro b c hc; cases hc
  | cons a rest ih =>
    intro b c hc
    by_cases ha : isAllowedLangChar a = true
    · rw [show collapseRuns b (a :: rest) = a :: collapseRuns false rest by
        simp [collapseRuns, ha]] at hc
      rcases List.mem_cons.mp hc with rfl | hc
      · exact ha
      · exact ih false c hc
    · cases b with
      | true =>
        rw [show collapseRuns true (a :: rest) = collapseRuns true rest by
          simp [collapseRuns, ha]] at hc
        exact ih true c hc
      | false =>
        rw [show collapseRuns false (a :: rest) = '_' :: collapseRuns true rest by
          simp [collapseRuns, ha]] at hc
        rcases List.mem_cons.mp hc with rfl | hc
        · decide
        · exact ih true c hc

theorem safeLang_allowed (lang : String) :
    ∀ c ∈ (safeLang lang).data, isAllowedLangChar c = true := by
  unfold safeLang
  by_cases h : (sanitizeLang lang).data.isEmpty = true
  · rw [if_pos h]
    decide
  · rw [if_neg h]
    show ∀ c ∈ collapseRuns false (strip lang).data, isAllowedLangChar c = true
    exact fun c hc => collapseRuns_allowed _ false c hc

theorem formatLang_dictionary (s : String) :
    (formatLang "\x7blang\x7d.txt" s).data = s.data ++ ".txt".data := rfl

theorem formatLang_hiddenFalsePositives (s : String) :
    (formatLang "hiddenFalsePositives.\x7blang\x7d.txt" s).data =
      "hiddenFalsePositives.".data ++ s.data ++ ".txt".data := rfl

theorem formatLang_disabledRules (s : String) :
    (formatLang "disabledRules.\x7blang\x7d.txt" s).data =
      "disabledRules.".data ++ s.data ++ ".txt".data := rfl

/-! ### Claim theorems -/

/-- Claim C9: the filename component substituted for the language tag is the
trimmed tag with every maximal run of characters outside [A-Za-z0-9._-]
collapsed to a single underscore (empty result becomes "unknown"); the tag
"en/GB*" yields "en_GB_"; no sanitized component contains a path separator,
and for each scope the resulting dictionary file path is exactly the target
directory extended by that single filename component, which itself contains
no separator, so the file stays inside the target directory. -/
theorem C9_filename_sanitization :
    sanitizeLang "en/GB*" = "en_GB_" ∧
    (∀ lang : String, ∀ c ∈ (safeLang lang).data, isAllowedLangChar c = true) ∧
    (∀ lang : String, '/' ∉ (safeLang lang).data ∧ '\\' ∉ (safeLang lang).data) ∧
    (∀ scope ∈ SCOPES, ∀ (store : List (String × JVal)) (lang : String),
      get_active_dict_path store scope lang =
        get_external_dir store scope ++ [formatLang scope.file_template (safeLang lang)] ∧
      '/' ∉ (formatLang scope.file_template (safeLang lang)).data) := by
  have hallowed := safeLang_allowed
  have hslash : ∀ lang : String, '/' ∉ (safeLang lang).data := by
    intro lang hmem
    have := hallowed lang _ hmem
    exact absurd this (by decide)
  refine ⟨by rfl, hallowed, ?_, ?_⟩
  · intro lang
    refine ⟨hslash lang, ?_⟩
    intro hmem
    have := hallowed lang _ hmem
    exact absurd this (by decide)
  · intro scope hs store lang
    have hs' : scope = dictionaryScope ∨ scope = hiddenFalsePositivesScope ∨
        scope = disabledRulesScope := by
      simpa [SCOPES] using hs
    rcases hs' with rfl | rfl | rfl
    · refine ⟨rfl, ?_⟩
      rw [show dictionaryScope.file_template = "\x7blang\x7d.txt" from rfl,
        formatLang_dictionary]
      intro hmem
      rcases List.mem_append.mp hmem with hmem | hmem
      · exact hslash lang hmem
      · exact absurd hmem (by decide)
    · refine ⟨rfl, ?_⟩
      rw [show hiddenFalsePositivesScope.file_template =
          "hiddenFalsePositives.\x7blang\x7d.txt" from rfl,
        formatLang_hiddenFalsePositives]
      intro hmem
      rcases List.mem_append.mp hmem with hmem | hmem
      · rcases List.mem_append.mp hmem with hmem | hmem
        · exact absurd hmem (by decide)
        · exact hslash lang hmem
      · exact absurd hmem (by decide)
    · refine ⟨rfl, ?_⟩
      rw [show disabledRulesScope.file_template =
          "disabledRules.\x7blang\x7d.txt" from rfl,
        formatLang_disabledRules]
      intro hmem
      rcases List.mem_append.mp hmem with hmem | hmem
      · rcases List.mem_append.mp hmem with hmem | hmem
        · exact absurd hmem (by decide)
        · exact hslash lang hmem
      · exact absurd hmem (by decide)

/-- Witness for C9 at the dictionary scope and the tag "en/GB*". -/
theorem C9_filename_sanitization_witness :
    dictionaryScope ∈ SCOPES ∧
    (get_active_dict_path [] dictionaryScope "en/GB*" =
      get_external_dir [] dictionaryScope ++
        [formatLang dictionaryScope.file_template (safeLang "en/GB*")] ∧
    '/' ∉ (formatLang dictionaryScope.file_template (safeLang "en/GB*")).data) :=
  ⟨by decide, C9_filename_sanitization.2.2.2 dictionaryScope (by decide) [] "en/GB*"⟩

theorem findTargetKey_found (doc : List (String × JVal)) (scope : SettingScope)
    (k : String) (h : findTargetKey doc scope = some k) :
    (alistFind doc k).isSome = true := by
  unfold findTargetKey at h
  by_cases hk : (alistFind doc scope.server_key).isSome = true
  · rw [if_pos hk] at h
    obtain rfl : scope.server_key = k := by simpa using h
    exact hk
  · rw [if_neg hk] at h
    have h2 := List.find?_some h
    simpa using h2

theorem expandScope_none (st : St) (doc : List (String × JVal)) (scope : SettingScope)
    (h : findTargetKey doc scope = none) : expandScope st doc scope = (st, doc) := by
  unfold expandScope
  rw [h]

theorem expandScope_some (st : St) (doc : List (String × JVal)) (scope : SettingScope)
    (k : String) (h : findTargetKey doc scope = some k) :
    expandScope st doc scope =
      ((expandCfgLoop st (as_dict (jGet doc k))).1,
       alistSet doc k (JVal.dict (expandCfgLoop st (as_dict (jGet doc k))).2)) := by
  unfold expandScope
  rw [h]

theorem scopeClean_some (doc : List (String × JVal)) (scope : SettingScope)
    (k : String) (h : findTargetKey doc scope = some k) :
    scopeClean doc scope = cleanCfgVal (jGet doc k) := by
  unfold scopeClean
  rw [h]

theorem expandCfgLoop_clean (st : St) (cfg : List (String × JVal))
    (h : cfg.all (fun e => (markerPath (as_list e.2)).isNone) = true) :
    expandCfgLoop st cfg = (st, cfg) := by
  induction cfg with
  | nil => rfl
  | cons e rest ih =>
    obtain ⟨lang, items⟩ := e
    simp only [List.all_cons, Bool.and_eq_true] at h
    have hnone : markerPath (as_list items) = none :=
      Option.isNone_iff_eq_none.mp h.1
    simp [expandCfgLoop, hnone, ih h.2]

theorem expandScope_clean (st : St) (doc : List (String × JVal)) (scope : SettingScope)
    (h : scopeClean doc scope = true) : expandScope st doc scope = (st, doc) := by
  cases hk : findTargetKey doc scope with
  | none => exact expandScope_none st doc scope hk
  | some k =>
    rw [scopeClean_some doc scope k hk] at h
    cases hv : jGet doc k with
    | dict cfg =>
      rw [hv] at h
      rw [show cleanCfgVal (JVal.dict cfg) =
        cfg.all (fun e => (markerPath (as_list e.2)).isNone) from rfl] at h
      rw [expandScope_some st doc scope k hk, hv,
        show as_dict (JVal.dict cfg) = cfg from rfl, expandCfgLoop_clean st cfg h]
      have hks := findTargetKey_found doc scope k hk
      obtain ⟨v, hfv⟩ := Option.isSome_iff_exists.mp hks
      have hjv : v = JVal.dict cfg := by
        rw [jGet, hfv] at hv
        exact hv
      rw [show JVal.dict cfg = v from hjv.symm, alistSet_of_find_eq doc k v hfv]
    | str s => rw [hv] at h; cases h
    | list l => rw [hv] at h; cases h
    | bool b => rw [hv] at h; cases h
    | null => rw [hv] at h; cases h

/-- Claim C4: expansion of a configuration document with no FileMarker value
(at each scope's active key the document holds a mapping, and no language
entry list is a single-element list whose string element starts with ":")
returns the document unchanged — and, the model being pure because the source
deep-copies before editing, the input document is never mutated in any
case. -/
theorem C4_expand_idempotent (st : St) (doc : List (String × JVal))
    (h : noMarkerDoc doc = true) : expand_settings st doc = (st, doc) := by
  unfold noMarkerDoc SCOPES at h
  simp only [List.all_cons, List.all_nil, Bool.and_eq_true, and_true] at h
  obtain ⟨h1, h2, h3⟩ := h
  unfold expand_settings SCOPES
  simp only [List.foldl_cons, List.foldl_nil]
  rw [expandScope_clean st doc dictionaryScope h1,
    expandScope_clean st doc hiddenFalsePositivesScope h2,
    expandScope_clean st doc disabledRulesScope h3]

/-- Witness for C4: a marker-free document with an inline dictionary and an
unrelated key expands to itself. -/
theorem C4_expand_idempotent_witness :
    noMarkerDoc [("ltex.dictionary", JVal.dict [("en", JVal.list [JVal.str "a"])]),
      ("other", JVal.str "x")] = true ∧
    expand_settings ⟨⟨[], [], 0⟩, []⟩
      [("ltex.dictionary", JVal.dict [("en", JVal.list [JVal.str "a"])]),
        ("other", JVal.str "x")] =
      (⟨⟨[], [], 0⟩, []⟩,
       [("ltex.dictionary", JVal.dict [("en", JVal.list [JVal.str "a"])]),
        ("other", JVal.str "x")]) :=
  ⟨rfl, C4_expand_idempotent _ _ rfl⟩

/-- Claim C7: when every candidate entry is blank after stripping, a comment,
already in the file's current word set (the parse of its content, with the
path's cache slot coherent as in every reachable state), or a duplicate after
stripping of an earlier entry of the same call, append writes nothing — the
files are unchanged and the cached modification time equals the file's
unchanged current modification time — and returns the empty list. -/
theorem C7_dedup_no_write (st : St) (path : FPath) (ws : List String)
    (hcoh : pathCoherent st (pathStr path) = true)
    (hred : allRedundant (parseWords (contentChars st (pathStr path))) [] ws = true) :
    (append_words_to_file st path ws).2 = [] ∧
    (append_words_to_file st path ws).1.fs.files = st.fs.files ∧
    cachedMtime (append_words_to_file st path ws).1 (pathStr path) =
      some (curMtime st (pathStr path)) := by
  have hcoh1 : pathCoherent (mkdir_parents st path.dropLast) (pathStr path) = true := by
    rw [mkdir_pathCoherent]; exact hcoh
  have hobs : (ensure_cache_loaded (mkdir_parents st path.dropLast) (pathStr path)).2 =
      parseWords (contentChars st (pathStr path)) := by
    rw [ensure_snd_coherent _ _ hcoh1, mkdir_contentChars]
  have happ := appendLoop_redundant ws
    (ensure_cache_loaded (mkdir_parents st path.dropLast) (pathStr path)).2
    (parseWords (contentChars st (pathStr path))) [] hred
    (by rw [hobs]; exact fun x hx => hx)
    (by intro p hp; cases hp)
  have hnil : (appendLoop (ensure_cache_loaded (mkdir_parents st path.dropLast)
      (pathStr path)).2 ws).2 = [] := by
    rw [happ]
  rw [append_eq_nil_case st path ws hnil]
  refine ⟨rfl, ?_, ?_⟩
  · rw [ensure_filesEq, mkdir_filesEq]
  · have hself := ensure_cache_self (mkdir_parents st path.dropLast) (pathStr path)
    simp [cachedMtime, hself, mkdir_curMtime]

/-- Witness for C7: a file holding "dog"; the batch repeats it, adds blanks,
comments and an in-batch duplicate; nothing is written. -/
theorem C7_dedup_no_write_witness :
    pathCoherent ⟨⟨[("d/f.txt", ⟨("dog\n").data, 5⟩)], [], 6⟩, []⟩ (pathStr ["d", "f.txt"]) =
      true ∧
    allRedundant (parseWords (contentChars
        ⟨⟨[("d/f.txt", ⟨("dog\n").data, 5⟩)], [], 6⟩, []⟩ (pathStr ["d", "f.txt"]))) []
        ["dog", " ", "#note", " dog "] = true ∧
    ((append_words_to_file ⟨⟨[("d/f.txt", ⟨("dog\n").data, 5⟩)], [], 6⟩, []⟩ ["d", "f.txt"]
        ["dog", " ", "#note", " dog "]).2 = [] ∧
      (append_words_to_file ⟨⟨[("d/f.txt", ⟨("dog\n").data, 5⟩)], [], 6⟩, []⟩ ["d", "f.txt"]
        ["dog", " ", "#note", " dog "]).1.fs.files =
        (⟨⟨[("d/f.txt", ⟨("dog\n").data, 5⟩)], [], 6⟩, []⟩ : St).fs.files ∧
      cachedMtime (append_words_to_file ⟨⟨[("d/f.txt", ⟨("dog\n").data, 5⟩)], [], 6⟩, []⟩
          ["d", "f.txt"] ["dog", " ", "#note", " dog "]).1 (pathStr ["d", "f.txt"]) =
        some (curMtime ⟨⟨[("d/f.txt", ⟨("dog\n").data, 5⟩)], [], 6⟩, []⟩ (pathStr ["d", "f.txt"]))) :=
  ⟨rfl, rfl, C7_dedup_no_write _ _ _ rfl rfl⟩

/-- Claim C6: after an append that actually added words, a load of the same
path is served from the cache without re-reading — the state is unchanged by
the load, the cached modification time equals the file's current modification
time — and the served set contains every newly added word; in general a load
leaves the state untouched (reuses the entry without re-reading) exactly when
the stored modification time equals the file's current one, and then returns
the cached words. -/
theorem C6_cache_coherence (st : St) (path : FPath) (ws : List String)
    (st2 : St) (ps2 : String) :
    ((append_words_to_file st path ws).2 ≠ [] →
      (ensure_cache_loaded (append_words_to_file st path ws).1 (pathStr path)).1 =
        (append_words_to_file st path ws).1 ∧
      cachedMtime (append_words_to_file st path ws).1 (pathStr path) =
        some (curMtime (append_words_to_file st path ws).1 (pathStr path)) ∧
      ∀ w ∈ (append_words_to_file st path ws).2,
        w ∈ (ensure_cache_loaded (append_words_to_file st path ws).1 (pathStr path)).2) ∧
    ((ensure_cache_loaded st2 ps2).1 = st2 ↔
      cachedMtime st2 ps2 = some (curMtime st2 ps2)) := by
  refine ⟨?_, ensure_fst_eq_iff st2 ps2⟩
  intro hne
  have hnil : ¬ (appendLoop (ensure_cache_loaded (mkdir_parents st path.dropLast)
      (pathStr path)).2 ws).2 = [] := by
    intro h0
    rw [append_eq_nil_case st path ws h0] at hne
    exact hne rfl
  rw [append_eq_commit_case st path ws hnil]
  have hcacheC := appendCommit_cache_self
    (ensure_cache_loaded (mkdir_parents st path.dropLast) (pathStr path)).1 (pathStr path)
    (appendLoop (ensure_cache_loaded (mkdir_parents st path.dropLast)
      (pathStr path)).2 ws).1
    (appendLoop (ensure_cache_loaded (mkdir_parents st path.dropLast)
      (pathStr path)).2 ws).2
  have hmt : cachedMtime (appendCommit
      (ensure_cache_loaded (mkdir_parents st path.dropLast) (pathStr path)).1 (pathStr path)
      (appendLoop (ensure_cache_loaded (mkdir_parents st path.dropLast)
        (pathStr path)).2 ws).1
      (appendLoop (ensure_cache_loaded (mkdir_parents st path.dropLast)
        (pathStr path)).2 ws).2) (pathStr path) =
      some (curMtime (appendCommit
        (ensure_cache_loaded (mkdir_parents st path.dropLast) (pathStr path)).1 (pathStr path)
        (appendLoop (ensure_cache_loaded (mkdir_parents st path.dropLast)
          (pathStr path)).2 ws).1
        (appendLoop (ensure_cache_loaded (mkdir_parents st path.dropLast)
          (pathStr path)).2 ws).2) (pathStr path)) := by
    simp [cachedMtime, hcacheC, appendCommit_curMtime_self]
  have hensure := ensure_hit _ (pathStr path) _ hcacheC (by
    rw [appendCommit_curMtime_self])
  refine ⟨?_, hmt, ?_⟩
  · rw [hensure]
  · intro w hw
    rw [hensure]
    show w ∈ (appendLoop (ensure_cache_loaded (mkdir_parents st path.dropLast)
      (pathStr path)).2 ws).1
    rw [appendLoop_fst]
    exact List.mem_append_right _ hw

/-- Witness for C6: appending a fresh word to an empty state adds it, and the
subsequent load is served from the cache including the new word. -/
theorem C6_cache_coherence_witness :
    (append_words_to_file ⟨⟨[], [], 0⟩, []⟩ ["d", "f.txt"] ["cat"]).2 ≠ [] ∧
    ((ensure_cache_loaded (append_words_to_file ⟨⟨[], [], 0⟩, []⟩ ["d", "f.txt"]
        ["cat"]).1 (pathStr ["d", "f.txt"])).1 =
      (append_words_to_file ⟨⟨[], [], 0⟩, []⟩ ["d", "f.txt"] ["cat"]).1 ∧
    cachedMtime (append_words_to_file ⟨⟨[], [], 0⟩, []⟩ ["d", "f.txt"] ["cat"]).1
        (pathStr ["d", "f.txt"]) =
      some (curMtime (append_words_to_file ⟨⟨[], [], 0⟩, []⟩ ["d", "f.txt"] ["cat"]).1
        (pathStr ["d", "f.txt"])) ∧
    ∀ w ∈ (append_words_to_file ⟨⟨[], [], 0⟩, []⟩ ["d", "f.txt"] ["cat"]).2,
      w ∈ (ensure_cache_loaded (append_words_to_file ⟨⟨[], [], 0⟩, []⟩ ["d", "f.txt"]
        ["cat"]).1 (pathStr ["d", "f.txt"])).2) :=
  ⟨by decide, (C6_cache_coherence ⟨⟨[], [], 0⟩, []⟩ ["d", "f.txt"] ["cat"]
    ⟨⟨[], [], 0⟩, []⟩ "q").1 (by decide)⟩

theorem ensure_of_mtime_match (st : St) (ps : String)
    (h : cachedMtime st ps = some (curMtime st ps)) :
    ensure_cache_loaded st ps = (st, cacheWords st ps) := by
  obtain ⟨e, hf, hm⟩ : ∃ e, alistFind st.cache ps = some e ∧
      e.mtime = curMtime st ps := by
    unfold cachedMtime at h
    cases hf : alistFind st.cache ps with
    | none => rw [hf] at h; cases h
    | some e =>
      rw [hf] at h
      exact ⟨e, rfl, by simpa using h⟩
  rw [ensure_hit st ps e hf hm]
  unfold cacheWords
  rw [hf]

theorem markerPath_marker (s : String) :
    markerPath [JVal.str (":" ++ s)] = some s := rfl

theorem expandCfgLoop_marker (st : St) (lang : String) (items : JVal)
    (rest : List (String × JVal)) (fps : String)
    (h : markerPath (as_list items) = some fps) :
    expandCfgLoop st ((lang, items) :: rest) =
      ((expandCfgLoop (ensure_cache_loaded st fps).1 rest).1,
       (lang, JVal.list ((sortStrings (ensure_cache_loaded st fps).2).map JVal.str)) ::
         (expandCfgLoop (ensure_cache_loaded st fps).1 rest).2) := by
  conv_lhs => rw [expandCfgLoop]
  rw [h]

/-- Claim C5: on a fresh path (no file, no cache slot), appending a list of
distinct well-formed words yields exactly those words as added; a load of the
same path then yields exactly the set of those words; and expanding a
configuration document whose dictionary entry list is the marker for that
path yields that word list in code-point lexicographic sorted order. -/
theorem C5_marker_roundtrip (st : St) (path : FPath) (ws : List String) (lang : String)
    (hfile : fileFind st (pathStr path) = none)
    (hcache : alistFind st.cache (pathStr path) = none)
    (hv : validWords ws = true) (hnd : ws.Nodup) :
    (append_words_to_file st path ws).2 = ws ∧
    (ensure_cache_loaded (append_words_to_file st path ws).1 (pathStr path)).2 = ws ∧
    (∀ w, w ∈ (ensure_cache_loaded (append_words_to_file st path ws).1 (pathStr path)).2 ↔
      w ∈ ws) ∧
    (expand_settings (append_words_to_file st path ws).1
        [("ltex.dictionary",
          JVal.dict [(lang, JVal.list [JVal.str (":" ++ pathStr path)])])]).2 =
      [("ltex.dictionary", JVal.dict [(lang, JVal.list ((sortStrings ws).map JVal.str))])] := by
  have hcoh : pathCoherent st (pathStr path) = true := by
    unfold pathCoherent
    rw [hcache]
  have hwf : contentWF st (pathStr path) = true := by
    unfold contentWF
    rw [hfile]
  have hcontent : contentChars st (pathStr path) = [] := by
    unfold contentChars
    rw [hfile]
  have hspec := append_spec st path ws hv hcoh hwf
  obtain ⟨hmem, hparse, hcoh', hwf', hcw, hmt⟩ := hspec
  have hadded : (append_words_to_file st path ws).2 = ws := by
    have hobs : (ensure_cache_loaded (mkdir_parents st path.dropLast) (pathStr path)).2 =
        [] := by
      rw [ensure_snd_coherent _ _ (by rw [mkdir_pathCoherent]; exact hcoh),
        mkdir_contentChars, hcontent, parseWords_nilContent]
    have happ := appendLoop_fresh_all ws hv hnd
      (ensure_cache_loaded (mkdir_parents st path.dropLast) (pathStr path)).2
      (by rw [hobs]; intro x _ hx; cases hx)
    by_cases hws : ws = []
    · subst hws
      rw [append_eq_nil_case st path [] (by rw [happ])]
    · have hnil : ¬ (appendLoop (ensure_cache_loaded (mkdir_parents st path.dropLast)
          (pathStr path)).2 ws).2 = [] := by
        rw [happ]
        exact hws
      rw [append_eq_commit_case st path ws hnil, happ]
  have hserved : (ensure_cache_loaded (append_words_to_file st path ws).1
      (pathStr path)).2 = ws := by
    rw [ensure_of_mtime_match _ _ hmt]
    show cacheWords (append_words_to_file st path ws).1 (pathStr path) = ws
    rw [hcw, hparse, hcontent, parseWords_nilContent, hadded]
    rfl
  have hensure : ensure_cache_loaded (append_words_to_file st path ws).1 (pathStr path) =
      ((append_words_to_file st path ws).1, ws) := by
    rw [ensure_of_mtime_match _ _ hmt]
    rw [show cacheWords (append_words_to_file st path ws).1 (pathStr path) = ws from by
      rw [hcw, hparse, hcontent, parseWords_nilContent, hadded]; rfl]
  refine ⟨hadded, hserved, fun w => by rw [hserved], ?_⟩
  unfold expand_settings SCOPES
  simp only [List.foldl_cons, List.foldl_nil]
  rw [expandScope_some (append_words_to_file st path ws).1
    [("ltex.dictionary", JVal.dict [(lang, JVal.list [JVal.str (":" ++ pathStr path)])])]
    dictionaryScope "ltex.dictionary" rfl]
  rw [show as_dict (jGet [("ltex.dictionary",
      JVal.dict [(lang, JVal.list [JVal.str (":" ++ pathStr path)])])] "ltex.dictionary") =
      [(lang, JVal.list [JVal.str (":" ++ pathStr path)])] from rfl]
  rw [expandCfgLoop_marker _ lang (JVal.list [JVal.str (":" ++ pathStr path)]) []
    (pathStr path) (markerPath_marker (pathStr path))]
  rw [hensure]
  dsimp only
  rw [show expandCfgLoop (append_words_to_file st path ws).1 [] =
      ((append_words_to_file st path ws).1, []) from rfl]
  dsimp only
  rw [show alistSet
      [("ltex.dictionary", JVal.dict [(lang, JVal.list [JVal.str (":" ++ pathStr path)])])]
      "ltex.dictionary" (JVal.dict [(lang, JVal.list ((sortStrings ws).map JVal.str))]) =
      [("ltex.dictionary", JVal.dict [(lang, JVal.list ((sortStrings ws).map JVal.str))])]
      from rfl]
  rw [expandScope_none (append_words_to_file st path ws).1
    [("ltex.dictionary", JVal.dict [(lang, JVal.list ((sortStrings ws).map JVal.str))])]
    hiddenFalsePositivesScope rfl]
  dsimp only
  rw [expandScope_none (append_words_to_file st path ws).1
    [("ltex.dictionary", JVal.dict [(lang, JVal.list ((sortStrings ws).map JVal.str))])]
    disabledRulesScope rfl]

/-- Witness for C5: two fresh words on a fresh path round-trip and expand in
sorted order. -/
theorem C5_marker_roundtrip_witness :
    fileFind ⟨⟨[], [], 0⟩, []⟩ (pathStr ["d", "f.txt"]) = none ∧
    alistFind (⟨⟨[], [], 0⟩, []⟩ : St).cache (pathStr ["d", "f.txt"]) = none ∧
    validWords ["b", "a"] = true ∧
    (["b", "a"] : List String).Nodup ∧
    ((append_words_to_file ⟨⟨[], [], 0⟩, []⟩ ["d", "f.txt"] ["b", "a"]).2 = ["b", "a"] ∧
     (ensure_cache_loaded (append_words_to_file ⟨⟨[], [], 0⟩, []⟩ ["d", "f.txt"]
        ["b", "a"]).1 (pathStr ["d", "f.txt"])).2 = ["b", "a"] ∧
     (∀ w, w ∈ (ensure_cache_loaded (append_words_to_file ⟨⟨[], [], 0⟩, []⟩ ["d", "f.txt"]
        ["b", "a"]).1 (pathStr ["d", "f.txt"])).2 ↔ w ∈ (["b", "a"] : List String)) ∧
     (expand_settings (append_words_to_file ⟨⟨[], [], 0⟩, []⟩ ["d", "f.txt"] ["b", "a"]).1
        [("ltex.dictionary", JVal.dict [("en", JVal.list
          [JVal.str (":" ++ pathStr ["d", "f.txt"])])])]).2 =
      [("ltex.dictionary", JVal.dict [("en", JVal.list
        ((sortStrings ["b", "a"]).map JVal.str))])]) :=
  ⟨rfl, rfl, rfl, by decide,
   C5_marker_roundtrip ⟨⟨[], [], 0⟩, []⟩ ["d", "f.txt"] ["b", "a"] "en" rfl rfl rfl
     (by decide)⟩

/-! ### Route and loop unfolding lemmas for the code-action paths -/

theorem update_route_some (env : Env) (key : String) (value : JVal) (scope : SettingScope)
    (h : findScope key = some scope) :
    update_from_code_action env key value =
      (if external_enabled env.store scope then update_dictionary_external env scope value
       else (update_settings_plain env key value, false)) := by
  unfold update_from_code_action
  rw [h]

theorem update_route_none (env : Env) (key : String) (value : JVal)
    (h : findScope key = none) :
    update_from_code_action env key value = (update_settings_plain env key value, false) := by
  unfold update_from_code_action
  rw [h]

theorem extLoop_cons (scope : SettingScope) (env : Env) (cfg : List (String × JVal))
    (ch wa : Bool) (lang : String) (items : JVal) (rest : List (String × JVal)) :
    extLoop scope env cfg ch wa ((lang, items) :: rest) =
      extLoop scope (extStep scope env cfg ch wa lang items).1
        (extStep scope env cfg ch wa lang items).2.1
        (extStep scope env cfg ch wa lang items).2.2.1
        (extStep scope env cfg ch wa lang items).2.2.2 rest := rfl

theorem extStep_skip (scope : SettingScope) (env : Env) (cfg : List (String × JVal))
    (ch wa : Bool) (lang : String) (items : JVal)
    (h : filterStr (as_list items) = []) :
    extStep scope env cfg ch wa lang items = (env, cfg, ch, wa) := by
  unfold extStep
  rw [if_pos h]

theorem extStep_go (scope : SettingScope) (env : Env) (cfg : List (String × JVal))
    (ch wa : Bool) (lang : String) (items : JVal)
    (h : ¬ filterStr (as_list items) = []) :
    extStep scope env cfg ch wa lang items =
      (let dictPath := get_active_dict_path env.store scope lang
       let ra := append_words_to_file env.st dictPath (filterStr (as_list items))
       let wa2 := wa || !ra.2.isEmpty
       let existingList := filterStr (as_list (jGet cfg lang))
       let embedded := existingList.filter (fun x => !is_external_marker x)
       let st2 := if embedded = [] then ra.1
                  else (append_words_to_file ra.1 dictPath embedded).1
       let env2 := { env with st := st2 }
       let marker := create_marker dictPath
       if existingList = [marker] then (env2, cfg, ch, wa2)
       else (env2, alistSet cfg lang (JVal.list [JVal.str marker]), true, wa2)) := by
  unfold extStep
  rw [if_neg h]

theorem extLoop_filter_empty (scope : SettingScope) (entries : List (String × JVal)) :
    ∀ env cfg ch wa,
      extLoop scope env cfg ch wa entries =
        extLoop scope env cfg ch wa
          (entries.filter (fun e => !(filterStr (as_list e.2)).isEmpty)) := by
  induction entries with
  | nil => intro env cfg ch wa; rfl
  | cons e rest ih =>
    intro env cfg ch wa
    obtain ⟨lang, items⟩ := e
    by_cases hinc : filterStr (as_list items) = []
    · have hfilter : ((lang, items) :: rest).filter
          (fun e => !(filterStr (as_list e.2)).isEmpty) =
          rest.filter (fun e => !(filterStr (as_list e.2)).isEmpty) := by
        simp [List.filter_cons, List.isEmpty_iff, hinc]
      rw [hfilter, extLoop_cons, extStep_skip scope env cfg ch wa lang items hinc]
      exact ih env cfg ch wa
    · have hfilter : ((lang, items) :: rest).filter
          (fun e => !(filterStr (as_list e.2)).isEmpty) =
          (lang, items) :: rest.filter (fun e => !(filterStr (as_list e.2)).isEmpty) := by
        simp [List.filter_cons, List.isEmpty_iff, hinc]
      rw [hfilter, extLoop_cons, extLoop_cons]
      exact ih _ _ _ _

/-- Counterexample to claim C8 as stated: with external dictionary files
enabled and no stored settings, a code action whose entry list for "en" is
the single all-whitespace string " " is not ignored — the all-whitespace
string survives the code's non-empty-string filter, so the language's inline
value is rewritten to the marker and the configuration is persisted: the
save counter increments and the stored settings change. -/
theorem C8_counterexample :
    (update_from_code_action
        ⟨[("use_external_dictionary_files", JVal.bool true)], ⟨⟨[], [], 0⟩, []⟩, 0⟩
        "ltex.dictionary" (JVal.dict [("en", JVal.list [JVal.str " "])])).1.saves = 1 ∧
    (update_from_code_action
        ⟨[("use_external_dictionary_files", JVal.bool true)], ⟨⟨[], [], 0⟩, []⟩, 0⟩
        "ltex.dictionary" (JVal.dict [("en", JVal.list [JVal.str " "])])).1.store ≠
      [("use_external_dictionary_files", JVal.bool true)] := by
  refine ⟨rfl, ?_⟩
  intro h
  have hlen : (update_from_code_action
      ⟨[("use_external_dictionary_files", JVal.bool true)], ⟨⟨[], [], 0⟩, []⟩, 0⟩
      "ltex.dictionary" (JVal.dict [("en", JVal.list [JVal.str " "])])).1.store.length =
      2 := rfl
  rw [h] at hlen
  simp at hlen

/-- Amended claim C8: with external files enabled, an incoming language tag
whose entry list contains no non-empty string entry (an empty list, or only
non-strings or empty strings) is ignored entirely — erasing all such
languages from the code action leaves the updated environment and the
returned flag unchanged, so no file or directory is touched, no marker is
written, and no persistence call results from such a language.  (As stated
the claim is false: a non-empty all-whitespace entry such as " " survives the
code's filter and its language is processed — nothing is appended to the
file, but the inline value is still rewritten to the marker and persisted;
see the counterexample.) -/
theorem C8_empty_language_ignored (env : Env) (key : String) (scope : SettingScope)
    (entries : List (String × JVal))
    (hscope : findScope key = some scope)
    (hen : external_enabled env.store scope = true) :
    update_from_code_action env key (JVal.dict entries) =
      update_from_code_action env key
        (JVal.dict (entries.filter (fun e => !(filterStr (as_list e.2)).isEmpty))) := by
  rw [update_route_some env key (JVal.dict entries) scope hscope,
    update_route_some env key
      (JVal.dict (entries.filter (fun e => !(filterStr (as_list e.2)).isEmpty))) scope hscope,
    if_pos hen, if_pos hen]
  unfold update_dictionary_external
  dsimp only
  rw [show as_dict (JVal.dict entries) = entries from rfl,
    show as_dict (JVal.dict (entries.filter (fun e => !(filterStr (as_list e.2)).isEmpty))) =
      entries.filter (fun e => !(filterStr (as_list e.2)).isEmpty) from rfl,
    ← extLoop_filter_empty scope entries]

/-- Witness for the amended C8: a language with only an empty-string entry is
erased without changing the outcome. -/
theorem C8_empty_language_ignored_witness :
    findScope "ltex.dictionary" = some dictionaryScope ∧
    external_enabled [("use_external_dictionary_files", JVal.bool true)]
      dictionaryScope = true ∧
    update_from_code_action
        ⟨[("use_external_dictionary_files", JVal.bool true)], ⟨⟨[], [], 0⟩, []⟩, 0⟩
        "ltex.dictionary"
        (JVal.dict [("en", JVal.list [JVal.str ""]), ("de", JVal.list [JVal.str "x"])]) =
      update_from_code_action
        ⟨[("use_external_dictionary_files", JVal.bool true)], ⟨⟨[], [], 0⟩, []⟩, 0⟩
        "ltex.dictionary"
        (JVal.dict ([("en", JVal.list [JVal.str ""]), ("de", JVal.list [JVal.str "x"])].filter
          (fun e => !(filterStr (as_list e.2)).isEmpty))) :=
  ⟨rfl, rfl, C8_empty_language_ignored
    ⟨[("use_external_dictionary_files", JVal.bool true)], ⟨⟨[], [], 0⟩, []⟩, 0⟩
    "ltex.dictionary" dictionaryScope
    [("en", JVal.list [JVal.str ""]), ("de", JVal.list [JVal.str "x"])] rfl rfl⟩

/-! ### Plain-merge path lemmas -/

theorem mergeLoop_novelSpec (incoming : List String) :
    ∀ out seen, mergeLoop out seen incoming = out ++ novelSpec seen incoming := by
  induction incoming with
  | nil => intro out seen; simp [mergeLoop, novelSpec]
  | cons x rest ih =>
    intro out seen
    by_cases hx : seen.contains x = true
    · rw [show mergeLoop out seen (x :: rest) = mergeLoop out seen rest from by
        conv_lhs => rw [mergeLoop]
        rw [if_pos hx]]
      rw [show novelSpec seen (x :: rest) = novelSpec seen rest from by
        conv_lhs => rw [novelSpec]
        rw [if_pos hx]]
      exact ih out seen
    · rw [show mergeLoop out seen (x :: rest) =
          mergeLoop (out ++ [x]) (seen ++ [x]) rest from by
        conv_lhs => rw [mergeLoop]
        rw [if_neg hx]]
      rw [show novelSpec seen (x :: rest) = x :: novelSpec (seen ++ [x]) rest from by
        conv_lhs => rw [novelSpec]
        rw [if_neg hx]]
      rw [ih (out ++ [x]) (seen ++ [x]), List.append_assoc]
      rfl

theorem merge_lists_spec (existing incoming : List String) :
    merge_lists existing incoming = existing ++ novelSpec existing incoming :=
  mergeLoop_novelSpec incoming existing existing

theorem plainLoop_cons (target : List (String × JVal)) (ch : Bool) (lang : String)
    (items : JVal) (rest : List (String × JVal)) :
    plainLoop target ch ((lang, items) :: rest) =
      (if merge_lists (filterStr (as_list (jGet target lang))) (filterStr (as_list items)) =
          filterStr (as_list (jGet target lang))
       then plainLoop target ch rest
       else plainLoop (alistSet target lang (JVal.list ((merge_lists
         (filterStr (as_list (jGet target lang)))
         (filterStr (as_list items))).map JVal.str))) true rest) := rfl

theorem plainLoop_spec (entries : List (String × JVal)) :
    ∀ target ch, ((entries.map Prod.fst).Nodup) →
      ((plainLoop target ch entries).2 =
        (ch || entries.any (fun e =>
          !(merge_lists (filterStr (as_list (jGet target e.1))) (filterStr (as_list e.2)) ==
            filterStr (as_list (jGet target e.1)))))) ∧
      (∀ k, k ∉ entries.map Prod.fst →
        jGet (plainLoop target ch entries).1 k = jGet target k) ∧
      (∀ e ∈ entries,
        jGet (plainLoop target ch entries).1 e.1 =
          (if merge_lists (filterStr (as_list (jGet target e.1)))
              (filterStr (as_list e.2)) = filterStr (as_list (jGet target e.1))
           then jGet target e.1
           else JVal.list ((merge_lists (filterStr (as_list (jGet target e.1)))
             (filterStr (as_list e.2))).map JVal.str))) := by
  induction entries with
  | nil =>
    intro target ch _
    exact ⟨by simp [plainLoop], fun k _ => rfl, fun e he => absurd he (List.not_mem_nil e)⟩
  | cons e rest ih =>
    intro target ch hnd
    obtain ⟨lang, items⟩ := e
    rw [List.map_cons] at hnd
    have hnd' : (rest.map Prod.fst).Nodup := (List.nodup_cons.mp hnd).2
    have hlang : lang ∉ rest.map Prod.fst := (List.nodup_cons.mp hnd).1
    rw [plainLoop_cons]
    by_cases hm : merge_lists (filterStr (as_list (jGet target lang)))
        (filterStr (as_list items)) = filterStr (as_list (jGet target lang))
    · rw [if_pos hm]
      obtain ⟨ih1, ih2, ih3⟩ := ih target ch hnd'
      refine ⟨?_, ?_, ?_⟩
      · rw [ih1, List.any_cons]
        have hbeq : (merge_lists (filterStr (as_list (jGet target lang)))
            (filterStr (as_list items)) == filterStr (as_list (jGet target lang))) = true := by
          rw [beq_iff_eq]
          exact hm
        simp [hbeq]
      · intro k hk
        rw [List.map_cons, List.mem_cons] at hk
        push_neg at hk
        exact ih2 k hk.2
      · intro e he
        rcases List.mem_cons.mp he with rfl | he
        · rw [if_pos hm]
          exact ih2 lang hlang
        · exact ih3 e he
    · rw [if_neg hm]
      obtain ⟨ih1, ih2, ih3⟩ := ih (alistSet target lang (JVal.list ((merge_lists
        (filterStr (as_list (jGet target lang)))
        (filterStr (as_list items))).map JVal.str))) true hnd'
      have hget_other : ∀ k, k ≠ lang →
          jGet (alistSet target lang (JVal.list ((merge_lists
            (filterStr (as_list (jGet target lang)))
            (filterStr (as_list items))).map JVal.str))) k = jGet target k := by
        intro k hk
        unfold jGet
        rw [alistFind_set_ne _ _ _ _ hk]
      have hget_self : jGet (alistSet target lang (JVal.list ((merge_lists
          (filterStr (as_list (jGet target lang)))
          (filterStr (as_list items))).map JVal.str))) lang =
          JVal.list ((merge_lists (filterStr (as_list (jGet target lang)))
            (filterStr (as_list items))).map JVal.str) := by
        unfold jGet
        rw [alistFind_set_self]
        rfl
      have hbeq : (merge_lists (filterStr (as_list (jGet target lang)))
          (filterStr (as_list items)) == filterStr (as_list (jGet target lang))) = false := by
        rw [beq_eq_false_iff_ne]
        exact hm
      refine ⟨?_, ?_, ?_⟩
      · rw [ih1]
        simp [hbeq]
      · intro k hk
        rw [List.map_cons, List.mem_cons] at hk
        push_neg at hk
        rw [ih2 k hk.2, hget_other k hk.1]
      · intro e he
        rcases List.mem_cons.mp he with rfl | he
        · rw [if_neg hm, ih2 lang hlang, hget_self]
        · rw [ih3 e he]
          have hne : e.1 ≠ lang := by
            intro hh
            apply hlang
            rw [← hh]
            exact List.mem_map_of_mem Prod.fst he
          rw [hget_other e.1 hne]

theorem update_route_plain (env : Env) (key : String) (value : JVal)
    (h : plainRouteB env.store key = true) :
    update_from_code_action env key value = (update_settings_plain env key value, false) := by
  unfold plainRouteB at h
  cases hs : findScope key with
  | none => exact update_route_none env key value hs
  | some s =>
    rw [hs] at h
    have hen : external_enabled env.store s = false := by
      rwa [Bool.not_eq_true'] at h
    rw [update_route_some env key value s hs]
    simp [hen]

theorem update_plain_unfold (env : Env) (key : String) (value : JVal) :
    update_settings_plain env key value =
      (if (plainLoop (storedTarget env key) false (as_dict value)).2 then
        persist_settings env (alistSet (storedServerSettings env) key
          (JVal.dict (plainLoop (storedTarget env key) false (as_dict value)).1))
      else env) := rfl

/-- Claim C3: for a code-action scope key whose scope has the external-files
flag disabled, and likewise for a key matching no known scope (merged under
the raw key), the update merges per language — the existing inline list (its
non-empty string entries) in its original order, followed by exactly those
incoming entries not already present, in their given order; the configuration
is persisted (exactly one save) if and only if some language's list changed;
and the call returns false. -/
theorem C3_plain_merge (env : Env) (key : String) (value : JVal)
    (hroute : plainRouteB env.store key = true)
    (hnd : ((as_dict value).map Prod.fst).Nodup) :
    (update_from_code_action env key value).2 = false ∧
    (∀ ex inc : List String, merge_lists ex inc = ex ++ novelSpec ex inc) ∧
    (update_from_code_action env key value).1.saves =
      env.saves + (if plainChanged env key value then 1 else 0) ∧
    (plainChanged env key value = false →
      (update_from_code_action env key value).1.store = env.store) ∧
    (plainChanged env key value = true →
      settingsGet (update_from_code_action env key value).1.store "settings" =
        JVal.dict (alistSet (storedServerSettings env) key
          (JVal.dict (plainLoop (storedTarget env key) false (as_dict value)).1))) ∧
    (∀ k, k ∉ (as_dict value).map Prod.fst →
      jGet (plainLoop (storedTarget env key) false (as_dict value)).1 k =
        jGet (storedTarget env key) k) ∧
    (∀ e ∈ as_dict value,
      jGet (plainLoop (storedTarget env key) false (as_dict value)).1 e.1 =
        (if merge_lists (existingInline env key e.1) (filterStr (as_list e.2)) =
            existingInline env key e.1
         then jGet (storedTarget env key) e.1
         else JVal.list ((merge_lists (existingInline env key e.1)
           (filterStr (as_list e.2))).map JVal.str))) := by
  obtain ⟨h1, h2, h3⟩ := plainLoop_spec (as_dict value) (storedTarget env key) false hnd
  have hflag : (plainLoop (storedTarget env key) false (as_dict value)).2 =
      plainChanged env key value := by
    rw [h1, Bool.false_or]
    rfl
  rw [update_route_plain env key value hroute, update_plain_unfold env key value]
  refine ⟨rfl, merge_lists_spec, ?_, ?_, ?_, h2, h3⟩
  · by_cases hc : plainChanged env key value = true
    · rw [hc, show (plainLoop (storedTarget env key) false (as_dict value)).2 = true from by
        rw [hflag, hc]]
      simp [persist_settings]
    · have hc' : plainChanged env key value = false := by
        cases hcc : plainChanged env key value
        · rfl
        · exact absurd hcc hc
      rw [hc', show (plainLoop (storedTarget env key) false (as_dict value)).2 = false from by
        rw [hflag, hc']]
      simp
  · intro hc'
    rw [show (plainLoop (storedTarget env key) false (as_dict value)).2 = false from by
      rw [hflag, hc']]
    simp
  · intro hc'
    rw [show (plainLoop (storedTarget env key) false (as_dict value)).2 = true from by
      rw [hflag, hc']]
    simp only [if_pos, persist_settings]
    unfold settingsGet
    rw [alistFind_set_self]
    rfl

/-- Witness for C3: with no enable flag set, adding a new word to an inline
dictionary goes through the plain merge and returns false. -/
theorem C3_plain_merge_witness :
    plainRouteB [("settings", JVal.dict [("ltex.dictionary",
      JVal.dict [("en", JVal.list [JVal.str "a"])])])] "ltex.dictionary" = true ∧
    ((as_dict (JVal.dict [("en", JVal.list [JVal.str "a", JVal.str "b"])])).map
      Prod.fst).Nodup ∧
    (update_from_code_action
      ⟨[("settings", JVal.dict [("ltex.dictionary",
        JVal.dict [("en", JVal.list [JVal.str "a"])])])], ⟨⟨[], [], 0⟩, []⟩, 0⟩
      "ltex.dictionary" (JVal.dict [("en", JVal.list [JVal.str "a", JVal.str "b"])])).2 =
      false :=
  ⟨rfl, by decide,
   (C3_plain_merge
     ⟨[("settings", JVal.dict [("ltex.dictionary",
       JVal.dict [("en", JVal.list [JVal.str "a"])])])], ⟨⟨[], [], 0⟩, []⟩, 0⟩
     "ltex.dictionary" (JVal.dict [("en", JVal.list [JVal.str "a", JVal.str "b"])])
     rfl (by decide)).1⟩

/-! ### The external loop as a pure fold -/

theorem strData_append (x y : String) : (x ++ y).data = x.data ++ y.data := rfl

theorem startswith_colon (s : String) : startswith (":" ++ s) ":" = true := rfl

theorem findScope_mem (key : String) (scope : SettingScope)
    (h : findScope key = some scope) : scope ∈ SCOPES :=
  List.mem_of_find?_eq_some h

theorem file_template_ne_nil (scope : SettingScope) (hs : scope ∈ SCOPES) (s : String) :
    (formatLang scope.file_template s).data ≠ [] := by
  have hcase : scope = dictionaryScope ∨ scope = hiddenFalsePositivesScope ∨
      scope = disabledRulesScope := by
    simpa [SCOPES] using hs
  rcases hcase with h | h | h <;> subst h
  · rw [show dictionaryScope.file_template = "\x7blang\x7d.txt" from rfl,
      formatLang_dictionary]
    intro hc
    rw [List.append_eq_nil] at hc
    exact absurd hc.2 (by decide)
  · rw [show hiddenFalsePositivesScope.file_template =
      "hiddenFalsePositives.\x7blang\x7d.txt" from rfl, formatLang_hiddenFalsePositives]
    intro hc
    rw [List.append_eq_nil, List.append_eq_nil] at hc
    exact absurd hc.2 (by decide)
  · rw [show disabledRulesScope.file_template = "disabledRules.\x7blang\x7d.txt" from rfl,
      formatLang_disabledRules]
    intro hc
    rw [List.append_eq_nil, List.append_eq_nil] at hc
    exact absurd hc.2 (by decide)

theorem pathStr_snoc_ne_nil (dir : FPath) (fn : String) (hfn : fn.data ≠ []) :
    (pathStr (dir ++ [fn])).data ≠ [] := by
  cases dir with
  | nil => exact hfn
  | cons c rest =>
    cases h : rest ++ [fn] with
    | nil => simp at h
    | cons x xs =>
      rw [show c :: rest ++ [fn] = c :: (rest ++ [fn]) from rfl, h]
      rw [show pathStr (c :: x :: xs) = c ++ "/" ++ joinSep "/" (x :: xs) from rfl,
        strData_append, strData_append]
      intro hc
      rw [List.append_eq_nil, List.append_eq_nil] at hc
      exact absurd hc.1.2 (by decide)

/-- The marker created for any active dictionary path of a real scope passes
the external-marker test (its path string is non-empty). -/
theorem marker_is_marker (scope : SettingScope) (hs : scope ∈ SCOPES)
    (store : List (String × JVal)) (lang : String) :
    is_external_marker (create_marker (get_active_dict_path store scope lang)) = true := by
  have hne : (pathStr (get_active_dict_path store scope lang)).data ≠ [] := by
    unfold get_active_dict_path
    exact pathStr_snoc_ne_nil (get_external_dir store scope)
      (formatLang scope.file_template (safeLang lang))
      (file_template_ne_nil scope hs (safeLang lang))
  have hpos : 0 < (pathStr (get_active_dict_path store scope lang)).data.length :=
    List.length_pos.mpr hne
  unfold is_external_marker create_marker
  rw [startswith_colon, Bool.true_and, decide_eq_true_eq, strData_append]
  rw [show (":").data = [':'] from rfl]
  simp only [List.length_append, List.length_singleton]
  omega

theorem get_external_dir_congr (s1 s2 : List (String × JVal)) (scope : SettingScope)
    (h : settingsGet s1 scope.dir_key = settingsGet s2 scope.dir_key) :
    get_external_dir s1 scope = get_external_dir s2 scope := by
  unfold get_external_dir
  rw [h]

theorem get_active_dict_path_congr (s1 s2 : List (String × JVal)) (scope : SettingScope)
    (lang : String) (h : settingsGet s1 scope.dir_key = settingsGet s2 scope.dir_key) :
    get_active_dict_path s1 scope lang = get_active_dict_path s2 scope lang := by
  unfold get_active_dict_path
  rw [get_external_dir_congr s1 s2 scope h]

theorem extStep_proj (scope : SettingScope) (env : Env) (cfg : List (String × JVal))
    (ch wa : Bool) (lang : String) (items : JVal) :
    (extStep scope env cfg ch wa lang items).1.store = env.store ∧
    (extStep scope env cfg ch wa lang items).1.saves = env.saves ∧
    (extStep scope env cfg ch wa lang items).1.st =
      extStepSt scope env.store env.st cfg lang items ∧
    (extStep scope env cfg ch wa lang items).2 =
      extStepRes scope env.store env.st cfg ch wa lang items := by
  by_cases h : filterStr (as_list items) = []
  · rw [extStep_skip scope env cfg ch wa lang items h]
    unfold extStepSt extStepRes
    rw [if_pos h, if_pos h]
    exact ⟨rfl, rfl, rfl, rfl⟩
  · rw [extStep_go scope env cfg ch wa lang items h]
    unfold extStepSt extStepRes
    rw [if_neg h, if_neg h]
    dsimp only
    by_cases hm : filterStr (as_list (jGet cfg lang)) =
        [create_marker (get_active_dict_path env.store scope lang)]
    · rw [if_pos hm, if_pos hm]
      exact ⟨rfl, rfl, rfl, rfl⟩
    · rw [if_neg hm, if_neg hm]
      exact ⟨rfl, rfl, rfl, rfl⟩

theorem extPure_nil (scope : SettingScope) (store : List (String × JVal))
    (acc : St × List (String × JVal) × Bool × Bool) :
    extPure scope store acc [] = acc := rfl

theorem extPure_cons (scope : SettingScope) (store : List (String × JVal))
    (st : St) (cfg : List (String × JVal)) (ch wa : Bool) (lang : String) (items : JVal)
    (rest : List (String × JVal)) :
    extPure scope store (st, cfg, ch, wa) ((lang, items) :: rest) =
      extPure scope store
        (extStepSt scope store st cfg lang items,
         extStepRes scope store st cfg ch wa lang items) rest := rfl

/-- The loop never touches the store or the save counter, and its state and
outputs are the pure fold of the step functions. -/
theorem extLoop_pure (scope : SettingScope) (entries : List (String × JVal)) :
    ∀ (env : Env) (cfg : List (String × JVal)) (ch wa : Bool),
    (extLoop scope env cfg ch wa entries).1.store = env.store ∧
    (extLoop scope env cfg ch wa entries).1.saves = env.saves ∧
    ((extLoop scope env cfg ch wa entries).1.st,
      (extLoop scope env cfg ch wa entries).2) =
      extPure scope env.store (env.st, cfg, ch, wa) entries := by
  induction entries with
  | nil =>
    intro env cfg ch wa
    exact ⟨rfl, rfl, rfl⟩
  | cons e rest ih =>
    intro env cfg ch wa
    obtain ⟨lang, items⟩ := e
    rw [extLoop_cons]
    obtain ⟨hstep1, hstep2, hstep3, hstep4⟩ := extStep_proj scope env cfg ch wa lang items
    obtain ⟨ih1, ih2, ih3⟩ := ih (extStep scope env cfg ch wa lang items).1
      (extStep scope env cfg ch wa lang items).2.1
      (extStep scope env cfg ch wa lang items).2.2.1
      (extStep scope env cfg ch wa lang items).2.2.2
    refine ⟨ih1.trans hstep1, ih2.trans hstep2, ?_⟩
    rw [ih3, hstep1, hstep3, hstep4, extPure_cons]

theorem extStepSt_congr (scope : SettingScope) (s1 s2 : List (String × JVal))
    (h : settingsGet s1 scope.dir_key = settingsGet s2 scope.dir_key)
    (st : St) (cfg : List (String × JVal)) (lang : String) (items : JVal) :
    extStepSt scope s1 st cfg lang items = extStepSt scope s2 st cfg lang items := by
  unfold extStepSt
  dsimp only
  rw [get_active_dict_path_congr s1 s2 scope lang h]

theorem extStepRes_congr (scope : SettingScope) (s1 s2 : List (String × JVal))
    (h : settingsGet s1 scope.dir_key = settingsGet s2 scope.dir_key)
    (st : St) (cfg : List (String × JVal)) (ch wa : Bool) (lang : String) (items : JVal) :
    extStepRes scope s1 st cfg ch wa lang items =
      extStepRes scope s2 st cfg ch wa lang items := by
  unfold extStepRes
  dsimp only
  rw [get_active_dict_path_congr s1 s2 scope lang h]

/-- The pure loop reads the store only at the scope's directory key. -/
theorem extPure_congr (scope : SettingScope) (s1 s2 : List (String × JVal))
    (h : settingsGet s1 scope.dir_key = settingsGet s2 scope.dir_key)
    (entries : List (String × JVal)) :
    ∀ acc, extPure scope s1 acc entries = extPure scope s2 acc entries := by
  induction entries with
  | nil =>
    intro acc
    rw [extPure_nil, extPure_nil]
  | cons e rest ih =>
    intro acc
    obtain ⟨lang, items⟩ := e
    obtain ⟨st, cfg, ch, wa⟩ := acc
    rw [extPure_cons, extPure_cons, extStepSt_congr scope s1 s2 h,
      extStepRes_congr scope s1 s2 h, ih]

theorem extStepSt_skip (scope : SettingScope) (store : List (String × JVal)) (st : St)
    (cfg : List (String × JVal)) (lang : String) (items : JVal)
    (h : filterStr (as_list items) = []) :
    extStepSt scope store st cfg lang items = st := by
  unfold extStepSt
  rw [if_pos h]

theorem extStepRes_skip (scope : SettingScope) (store : List (String × JVal)) (st : St)
    (cfg : List (String × JVal)) (ch wa : Bool) (lang : String) (items : JVal)
    (h : filterStr (as_list items) = []) :
    extStepRes scope store st cfg ch wa lang items = (cfg, ch, wa) := by
  unfold extStepRes
  rw [if_pos h]

theorem extStepSt_go (scope : SettingScope) (store : List (String × JVal)) (st : St)
    (cfg : List (String × JVal)) (lang : String) (items : JVal)
    (h : ¬ filterStr (as_list items) = []) :
    extStepSt scope store st cfg lang items =
      (if (filterStr (as_list (jGet cfg lang))).filter (fun x => !is_external_marker x) = []
       then (append_words_to_file st (get_active_dict_path store scope lang)
         (filterStr (as_list items))).1
       else (append_words_to_file
         (append_words_to_file st (get_active_dict_path store scope lang)
           (filterStr (as_list items))).1
         (get_active_dict_path store scope lang)
         ((filterStr (as_list (jGet cfg lang))).filter (fun x => !is_external_marker x))).1) := by
  unfold extStepSt
  rw [if_neg h]

theorem extStepSt_marker (scope : SettingScope) (store : List (String × JVal)) (st : St)
    (cfg : List (String × JVal)) (lang : String) (items : JVal)
    (h : ¬ filterStr (as_list items) = [])
    (hm : filterStr (as_list (jGet cfg lang)) =
      [create_marker (get_active_dict_path store scope lang)])
    (hmark : is_external_marker (create_marker (get_active_dict_path store scope lang)) = true) :
    extStepSt scope store st cfg lang items =
      (append_words_to_file st (get_active_dict_path store scope lang)
        (filterStr (as_list items))).1 := by
  rw [extStepSt_go scope store st cfg lang items h]
  have hemb : (filterStr (as_list (jGet cfg lang))).filter
      (fun x => !is_external_marker x) = [] := by
    rw [hm]
    simp [hmark]
  rw [hemb, if_pos rfl]

theorem extStepRes_marker (scope : SettingScope) (store : List (String × JVal)) (st : St)
    (cfg : List (String × JVal)) (ch wa : Bool) (lang : String) (items : JVal)
    (h : ¬ filterStr (as_list items) = [])
    (hm : filterStr (as_list (jGet cfg lang)) =
      [create_marker (get_active_dict_path store scope lang)]) :
    extStepRes scope store st cfg ch wa lang items =
      (cfg, ch, wa || !(append_words_to_file st (get_active_dict_path store scope lang)
        (filterStr (as_list items))).2.isEmpty) := by
  unfold extStepRes
  rw [if_neg h]
  dsimp only
  rw [if_pos hm]

theorem extStepRes_nomarker (scope : SettingScope) (store : List (String × JVal)) (st : St)
    (cfg : List (String × JVal)) (ch wa : Bool) (lang : String) (items : JVal)
    (h : ¬ filterStr (as_list items) = [])
    (hm : ¬ filterStr (as_list (jGet cfg lang)) =
      [create_marker (get_active_dict_path store scope lang)]) :
    extStepRes scope store st cfg ch wa lang items =
      (alistSet cfg lang
        (JVal.list [JVal.str (create_marker (get_active_dict_path store scope lang))]), true,
       wa || !(append_words_to_file st (get_active_dict_path store scope lang)
        (filterStr (as_list items))).2.isEmpty) := by
  unfold extStepRes
  rw [if_neg h]
  dsimp only
  rw [if_neg hm]

theorem jGet_set_self (l : List (String × JVal)) (k : String) (v : JVal) :
    jGet (alistSet l k v) k = v := by
  unfold jGet
  rw [alistFind_set_self]
  rfl

theorem jGet_set_ne (l : List (String × JVal)) (k k' : String) (v : JVal) (h : k' ≠ k) :
    jGet (alistSet l k v) k' = jGet l k' := by
  unfold jGet
  rw [alistFind_set_ne l k k' v h]

theorem storedServerSettings_persist (env' : Env) (ss : List (String × JVal)) :
    storedServerSettings (persist_settings env' ss) = ss := by
  unfold storedServerSettings persist_settings settingsGet
  rw [alistFind_set_self]
  rfl

theorem contentLen_files_congr (st1 st2 : St) (h : st1.fs.files = st2.fs.files) (ps : String) :
    contentLen st1 ps = contentLen st2 ps := by
  unfold contentLen contentChars fileFind
  rw [h]

/-- _update_dictionary_external, expressed through the loop: if the loop
reports a configuration change the new working config is stored under the
canonical server key and persisted (returning false), otherwise nothing is
stored and the words-added flag is returned. -/
theorem update_ext_unfold (env : Env) (scope : SettingScope) (value : JVal) :
    update_dictionary_external env scope value =
      (if (extLoop scope env (storedCfg env scope) false false (as_dict value)).2.2.1 then
        (persist_settings
          (extLoop scope env (storedCfg env scope) false false (as_dict value)).1
          (alistSet (storedServerSettings env) scope.server_key
            (JVal.dict (extLoop scope env (storedCfg env scope) false false
              (as_dict value)).2.1)), false)
       else ((extLoop scope env (storedCfg env scope) false false (as_dict value)).1,
         (extLoop scope env (storedCfg env scope) false false (as_dict value)).2.2.2)) := rfl

/-- The marker-mode invariant of the pure loop: when every targeted language
already stores exactly its canonical marker list, the loop leaves the working
configuration untouched, never sets the changed flag, only grows file
contents, and its words-added flag is set exactly when some file strictly
grew. -/
theorem extPure_marker (scope : SettingScope) (store : List (String × JVal))
    (hmark : ∀ lang, is_external_marker
      (create_marker (get_active_dict_path store scope lang)) = true)
    (entries : List (String × JVal)) :
    ∀ (st : St) (cfg : List (String × JVal)) (wa : Bool),
    markerModeB scope store cfg entries = true →
    (extPure scope store (st, cfg, false, wa) entries).2.1 = cfg ∧
    (extPure scope store (st, cfg, false, wa) entries).2.2.1 = false ∧
    (∀ ps, contentLen st ps ≤ contentLen (extPure scope store (st, cfg, false, wa) entries).1 ps) ∧
    ((extPure scope store (st, cfg, false, wa) entries).2.2.2 = false →
      wa = false ∧
      (extPure scope store (st, cfg, false, wa) entries).1.fs.files = st.fs.files) ∧
    ((extPure scope store (st, cfg, false, wa) entries).2.2.2 = true →
      wa = true ∨ ∃ ps, contentLen st ps <
        contentLen (extPure scope store (st, cfg, false, wa) entries).1 ps) := by
  induction entries with
  | nil =>
    intro st cfg wa _
    rw [extPure_nil]
    exact ⟨rfl, rfl, fun ps => le_refl _, fun h => ⟨h, rfl⟩, fun h => Or.inl h⟩
  | cons e rest ih =>
    intro st cfg wa hmode
    obtain ⟨lang, items⟩ := e
    unfold markerModeB at hmode
    rw [List.all_cons, Bool.and_eq_true] at hmode
    obtain ⟨hhead, htail⟩ := hmode
    rw [extPure_cons]
    by_cases hinc : filterStr (as_list items) = []
    · rw [extStepSt_skip scope store st cfg lang items hinc,
        extStepRes_skip scope store st cfg false wa lang items hinc]
      exact ih st cfg wa htail
    · have hmB : (filterStr (as_list (jGet cfg lang)) ==
          [create_marker (get_active_dict_path store scope lang)]) = true := by
        dsimp only at hhead
        rw [Bool.or_eq_true] at hhead
        rcases hhead with h1 | h1
        · exact absurd (List.isEmpty_iff.mp h1) hinc
        · exact h1
      have hm := eq_of_beq hmB
      rw [extStepSt_marker scope store st cfg lang items hinc hm (hmark lang),
        extStepRes_marker scope store st cfg false wa lang items hinc hm]
      obtain ⟨frameNil, frameStrict, _, frameMono⟩ :=
        append_frame st (get_active_dict_path store scope lang) (filterStr (as_list items))
      obtain ⟨ih1, ih2, ih3, ih4, ih5⟩ := ih
        (append_words_to_file st (get_active_dict_path store scope lang)
          (filterStr (as_list items))).1 cfg
        (wa || !(append_words_to_file st (get_active_dict_path store scope lang)
          (filterStr (as_list items))).2.isEmpty) htail
      refine ⟨ih1, ih2, ?_, ?_, ?_⟩
      · intro ps
        exact le_trans (frameMono ps) (ih3 ps)
      · intro hfalse
        obtain ⟨hwa2, hfiles⟩ := ih4 hfalse
        rw [Bool.or_eq_false_iff] at hwa2
        refine ⟨hwa2.1, ?_⟩
        have hr2 : (append_words_to_file st (get_active_dict_path store scope lang)
            (filterStr (as_list items))).2 = [] := by
          have hb := hwa2.2
          revert hb
          cases (append_words_to_file st (get_active_dict_path store scope lang)
            (filterStr (as_list items))).2 <;> simp
        rw [hfiles, frameNil hr2]
      · intro htrue
        rcases ih5 htrue with hwa2 | hstrict
        · rw [Bool.or_eq_true] at hwa2
          rcases hwa2 with hwa | hadd
          · exact Or.inl hwa
          · refine Or.inr ⟨pathStr (get_active_dict_path store scope lang), ?_⟩
            have hne : (append_words_to_file st (get_active_dict_path store scope lang)
                (filterStr (as_list items))).2 ≠ [] := by
              intro hnil
              rw [hnil] at hadd
              simp at hadd
            exact lt_of_lt_of_le (frameStrict hne) (ih3 _)
        · obtain ⟨ps, hps⟩ := hstrict
          exact Or.inr ⟨ps, lt_of_le_of_lt (frameMono ps) hps⟩

/-- Claim C2: for a scope with external files enabled, when every targeted
language (one with at least one non-empty incoming string entry) already
stores exactly the single-element canonical marker list for its computed file
path, the stored configuration is neither modified nor persisted (the store
and the save counter are unchanged), and the call returns true exactly when
at least one incoming entry was newly appended to some external file (the
file map changed). -/
theorem C2_marker_no_persist (env : Env) (key : String) (value : JVal) (scope : SettingScope)
    (hscope : findScope key = some scope)
    (hen : external_enabled env.store scope = true)
    (hmode : markerModeB scope env.store (storedCfg env scope) (as_dict value) = true) :
    (update_from_code_action env key value).1.store = env.store ∧
    (update_from_code_action env key value).1.saves = env.saves ∧
    ((update_from_code_action env key value).2 = true ↔
      (update_from_code_action env key value).1.st.fs.files ≠ env.st.fs.files) := by
  have hs := findScope_mem key scope hscope
  have hmark : ∀ lang, is_external_marker
      (create_marker (get_active_dict_path env.store scope lang)) = true :=
    fun lang => marker_is_marker scope hs env.store lang
  rw [update_route_some env key value scope hscope, if_pos hen, update_ext_unfold]
  obtain ⟨hl1, hl2, hl3⟩ :=
    extLoop_pure scope (as_dict value) env (storedCfg env scope) false false
  have hst : (extLoop scope env (storedCfg env scope) false false (as_dict value)).1.st =
      (extPure scope env.store (env.st, storedCfg env scope, false, false) (as_dict value)).1 :=
    congrArg Prod.fst hl3
  have hres : (extLoop scope env (storedCfg env scope) false false (as_dict value)).2 =
      (extPure scope env.store (env.st, storedCfg env scope, false, false) (as_dict value)).2 :=
    congrArg Prod.snd hl3
  obtain ⟨hm1, hm2, hm3, hm4, hm5⟩ :=
    extPure_marker scope env.store hmark (as_dict value) env.st (storedCfg env scope) false hmode
  have hch : (extLoop scope env (storedCfg env scope) false false
      (as_dict value)).2.2.1 = false := by
    rw [hres]
    exact hm2
  rw [if_neg (by rw [hch]; simp)]
  refine ⟨hl1, hl2, ?_⟩
  dsimp only
  rw [hres, hst]
  cases hwa : (extPure scope env.store (env.st, storedCfg env scope, false, false)
      (as_dict value)).2.2.2 with
  | false =>
    obtain ⟨_, hfiles⟩ := hm4 hwa
    constructor
    · intro h
      exact absurd h (by simp)
    · intro hne
      exact (hne hfiles).elim
  | true =>
    rcases hm5 hwa with hwafalse | ⟨ps, hps⟩
    · exact absurd hwafalse (by simp)
    · constructor
      · intro _ hfeq
        have hcl := contentLen_files_congr _ _ hfeq ps
        omega
      · intro _
        rfl

/-- Witness for C2: a language already in marker mode receives a brand-new
word; the store and save counter stay untouched and the returned flag tracks
the file-map change. -/
theorem C2_marker_no_persist_witness :
    findScope "ltex.dictionary" = some dictionaryScope ∧
    external_enabled [("use_external_dictionary_files", JVal.bool true),
      ("settings", JVal.dict [("ltex.dictionary", JVal.dict [("en",
        JVal.list [JVal.str ":/Packages/User/LSP-ltex-plus/dictionaries/en.txt"])])])]
      dictionaryScope = true ∧
    markerModeB dictionaryScope
      [("use_external_dictionary_files", JVal.bool true),
       ("settings", JVal.dict [("ltex.dictionary", JVal.dict [("en",
         JVal.list [JVal.str ":/Packages/User/LSP-ltex-plus/dictionaries/en.txt"])])])]
      (storedCfg ⟨[("use_external_dictionary_files", JVal.bool true),
        ("settings", JVal.dict [("ltex.dictionary", JVal.dict [("en",
          JVal.list [JVal.str ":/Packages/User/LSP-ltex-plus/dictionaries/en.txt"])])])],
        ⟨⟨[], [], 0⟩, []⟩, 0⟩ dictionaryScope)
      (as_dict (JVal.dict [("en", JVal.list [JVal.str "zzz"])])) = true ∧
    (update_from_code_action ⟨[("use_external_dictionary_files", JVal.bool true),
        ("settings", JVal.dict [("ltex.dictionary", JVal.dict [("en",
          JVal.list [JVal.str ":/Packages/User/LSP-ltex-plus/dictionaries/en.txt"])])])],
        ⟨⟨[], [], 0⟩, []⟩, 0⟩ "ltex.dictionary"
        (JVal.dict [("en", JVal.list [JVal.str "zzz"])])).1.store =
      [("use_external_dictionary_files", JVal.bool true),
       ("settings", JVal.dict [("ltex.dictionary", JVal.dict [("en",
         JVal.list [JVal.str ":/Packages/User/LSP-ltex-plus/dictionaries/en.txt"])])])] ∧
    (update_from_code_action ⟨[("use_external_dictionary_files", JVal.bool true),
        ("settings", JVal.dict [("ltex.dictionary", JVal.dict [("en",
          JVal.list [JVal.str ":/Packages/User/LSP-ltex-plus/dictionaries/en.txt"])])])],
        ⟨⟨[], [], 0⟩, []⟩, 0⟩ "ltex.dictionary"
        (JVal.dict [("en", JVal.list [JVal.str "zzz"])])).1.saves = 0 ∧
    ((update_from_code_action ⟨[("use_external_dictionary_files", JVal.bool true),
        ("settings", JVal.dict [("ltex.dictionary", JVal.dict [("en",
          JVal.list [JVal.str ":/Packages/User/LSP-ltex-plus/dictionaries/en.txt"])])])],
        ⟨⟨[], [], 0⟩, []⟩, 0⟩ "ltex.dictionary"
        (JVal.dict [("en", JVal.list [JVal.str "zzz"])])).2 = true ↔
      (update_from_code_action ⟨[("use_external_dictionary_files", JVal.bool true),
        ("settings", JVal.dict [("ltex.dictionary", JVal.dict [("en",
          JVal.list [JVal.str ":/Packages/User/LSP-ltex-plus/dictionaries/en.txt"])])])],
        ⟨⟨[], [], 0⟩, []⟩, 0⟩ "ltex.dictionary"
        (JVal.dict [("en", JVal.list [JVal.str "zzz"])])).1.st.fs.files ≠ []) :=
  ⟨rfl, rfl, by decide,
    C2_marker_no_persist
      ⟨[("use_external_dictionary_files", JVal.bool true),
        ("settings", JVal.dict [("ltex.dictionary", JVal.dict [("en",
          JVal.list [JVal.str ":/Packages/User/LSP-ltex-plus/dictionaries/en.txt"])])])],
        ⟨⟨[], [], 0⟩, []⟩, 0⟩ "ltex.dictionary"
      (JVal.dict [("en", JVal.list [JVal.str "zzz"])]) dictionaryScope rfl rfl (by decide)⟩

/-- Claim C10: on the external-file path, the stored per-scope settings
mapping is read and rewritten only at the scope's canonical server key.
First conjunct (write frame): every other key of the stored settings mapping,
including alias keys such as "dictionary", keeps its value — alias entries
are never removed.  Second conjunct (read frame): any environment with the
same filesystem state whose store agrees outside the host "settings" entry
and whose stored settings mapping holds the same value at the canonical key
produces the same filesystem state and the same returned flag — alias
entries are never consulted, so inline words stored under an alias are not
migrated into the external file. -/
theorem C10_canonical_key_frame (env : Env) (key : String) (value : JVal)
    (scope : SettingScope)
    (hscope : findScope key = some scope)
    (hen : external_enabled env.store scope = true) :
    (∀ k, k ≠ scope.server_key →
      jGet (storedServerSettings (update_from_code_action env key value).1) k =
        jGet (storedServerSettings env) k) ∧
    (∀ env2 : Env, env2.st = env.st →
      (∀ k, k ≠ "settings" → settingsGet env2.store k = settingsGet env.store k) →
      jGet (storedServerSettings env2) scope.server_key =
        jGet (storedServerSettings env) scope.server_key →
      (update_from_code_action env2 key value).1.st =
        (update_from_code_action env key value).1.st ∧
      (update_from_code_action env2 key value).2 =
        (update_from_code_action env key value).2) := by
  have hs := findScope_mem key scope hscope
  have hkeys : scope.enable_key ≠ "settings" ∧ scope.dir_key ≠ "settings" := by
    have hall : ∀ s ∈ SCOPES, s.enable_key ≠ "settings" ∧ s.dir_key ≠ "settings" := by
      decide
    exact hall scope hs
  obtain ⟨hl1, hl2, hl3⟩ :=
    extLoop_pure scope (as_dict value) env (storedCfg env scope) false false
  rw [update_route_some env key value scope hscope, if_pos hen, update_ext_unfold]
  constructor
  · intro k hk
    by_cases hch : (extLoop scope env (storedCfg env scope) false false
        (as_dict value)).2.2.1 = true
    · rw [if_pos hch]
      show jGet (storedServerSettings (persist_settings
        (extLoop scope env (storedCfg env scope) false false (as_dict value)).1
        (alistSet (storedServerSettings env) scope.server_key
          (JVal.dict (extLoop scope env (storedCfg env scope) false false
            (as_dict value)).2.1)))) k = jGet (storedServerSettings env) k
      rw [storedServerSettings_persist, jGet_set_ne _ _ _ _ hk]
    · rw [if_neg hch]
      show jGet (storedServerSettings
        (extLoop scope env (storedCfg env scope) false false (as_dict value)).1) k =
        jGet (storedServerSettings env) k
      unfold storedServerSettings
      rw [hl1]
  · intro env2 hst hagree hcanon
    have hen2 : external_enabled env2.store scope = true := by
      unfold external_enabled
      rw [hagree scope.enable_key hkeys.1]
      exact hen
    have hdir : settingsGet env2.store scope.dir_key = settingsGet env.store scope.dir_key :=
      hagree scope.dir_key hkeys.2
    have hcfg : storedCfg env2 scope = storedCfg env scope := congrArg as_dict hcanon
    rw [update_route_some env2 key value scope hscope, if_pos hen2, update_ext_unfold]
    obtain ⟨h2l1, h2l2, h2l3⟩ :=
      extLoop_pure scope (as_dict value) env2 (storedCfg env2 scope) false false
    have hpure : extPure scope env2.store
        (env2.st, storedCfg env2 scope, false, false) (as_dict value) =
        extPure scope env.store
          (env.st, storedCfg env scope, false, false) (as_dict value) := by
      rw [hst, hcfg, extPure_congr scope env2.store env.store hdir (as_dict value)]
    have e2st : (extLoop scope env2 (storedCfg env2 scope) false false
        (as_dict value)).1.st =
        (extPure scope env2.store (env2.st, storedCfg env2 scope, false, false)
          (as_dict value)).1 := congrArg Prod.fst h2l3
    have e1st : (extLoop scope env (storedCfg env scope) false false
        (as_dict value)).1.st =
        (extPure scope env.store (env.st, storedCfg env scope, false, false)
          (as_dict value)).1 := congrArg Prod.fst hl3
    have e2res : (extLoop scope env2 (storedCfg env2 scope) false false
        (as_dict value)).2 =
        (extPure scope env2.store (env2.st, storedCfg env2 scope, false, false)
          (as_dict value)).2 := congrArg Prod.snd h2l3
    have e1res : (extLoop scope env (storedCfg env scope) false false
        (as_dict value)).2 =
        (extPure scope env.store (env.st, storedCfg env scope, false, false)
          (as_dict value)).2 := congrArg Prod.snd hl3
    have hr2res : (extLoop scope env2 (storedCfg env2 scope) false false
        (as_dict value)).2 =
        (extLoop scope env (storedCfg env scope) false false (as_dict value)).2 := by
      rw [e2res, e1res, hpure]
    have hr2st : (extLoop scope env2 (storedCfg env2 scope) false false
        (as_dict value)).1.st =
        (extLoop scope env (storedCfg env scope) false false (as_dict value)).1.st := by
      rw [e2st, e1st, hpure]
    by_cases hch : (extLoop scope env (storedCfg env scope) false false
        (as_dict value)).2.2.1 = true
    · have hch2 : (extLoop scope env2 (storedCfg env2 scope) false false
          (as_dict value)).2.2.1 = true := by
        rw [hr2res]
        exact hch
      rw [if_pos hch, if_pos hch2]
      exact ⟨hr2st, rfl⟩
    · have hch2 : ¬ (extLoop scope env2 (storedCfg env2 scope) false false
          (as_dict value)).2.2.1 = true := by
        rw [hr2res]
        exact hch
      rw [if_neg hch, if_neg hch2]
      refine ⟨hr2st, ?_⟩
      show (extLoop scope env2 (storedCfg env2 scope) false false (as_dict value)).2.2.2 =
        (extLoop scope env (storedCfg env scope) false false (as_dict value)).2.2.2
      rw [hr2res]

/-- Witness for C10: with an alias-key entry ("dictionary") sitting next to
the canonical key, the external path leaves every non-canonical key of the
stored settings mapping unchanged and never consults it. -/
theorem C10_canonical_key_frame_witness :
    findScope "ltex.dictionary" = some dictionaryScope ∧
    external_enabled [("use_external_dictionary_files", JVal.bool true),
      ("settings", JVal.dict [("dictionary", JVal.dict [("en",
        JVal.list [JVal.str "aliasword"])]), ("ltex.dictionary", JVal.dict [])])]
      dictionaryScope = true ∧
    ((∀ k, k ≠ "ltex.dictionary" →
      jGet (storedServerSettings (update_from_code_action
        ⟨[("use_external_dictionary_files", JVal.bool true),
          ("settings", JVal.dict [("dictionary", JVal.dict [("en",
            JVal.list [JVal.str "aliasword"])]), ("ltex.dictionary", JVal.dict [])])],
          ⟨⟨[], [], 0⟩, []⟩, 0⟩ "ltex.dictionary"
        (JVal.dict [("en", JVal.list [JVal.str "w"])])).1) k =
        jGet (storedServerSettings
          (⟨[("use_external_dictionary_files", JVal.bool true),
            ("settings", JVal.dict [("dictionary", JVal.dict [("en",
              JVal.list [JVal.str "aliasword"])]), ("ltex.dictionary", JVal.dict [])])],
            ⟨⟨[], [], 0⟩, []⟩, 0⟩ : Env)) k) ∧
    (∀ env2 : Env, env2.st = (⟨[("use_external_dictionary_files", JVal.bool true),
          ("settings", JVal.dict [("dictionary", JVal.dict [("en",
            JVal.list [JVal.str "aliasword"])]), ("ltex.dictionary", JVal.dict [])])],
          ⟨⟨[], [], 0⟩, []⟩, 0⟩ : Env).st →
      (∀ k, k ≠ "settings" → settingsGet env2.store k =
        settingsGet (⟨[("use_external_dictionary_files", JVal.bool true),
          ("settings", JVal.dict [("dictionary", JVal.dict [("en",
            JVal.list [JVal.str "aliasword"])]), ("ltex.dictionary", JVal.dict [])])],
          ⟨⟨[], [], 0⟩, []⟩, 0⟩ : Env).store k) →
      jGet (storedServerSettings env2) "ltex.dictionary" =
        jGet (storedServerSettings (⟨[("use_external_dictionary_files", JVal.bool true),
          ("settings", JVal.dict [("dictionary", JVal.dict [("en",
            JVal.list [JVal.str "aliasword"])]), ("ltex.dictionary", JVal.dict [])])],
          ⟨⟨[], [], 0⟩, []⟩, 0⟩ : Env)) "ltex.dictionary" →
      (update_from_code_action env2 "ltex.dictionary"
        (JVal.dict [("en", JVal.list [JVal.str "w"])])).1.st =
        (update_from_code_action ⟨[("use_external_dictionary_files", JVal.bool true),
          ("settings", JVal.dict [("dictionary", JVal.dict [("en",
            JVal.list [JVal.str "aliasword"])]), ("ltex.dictionary", JVal.dict [])])],
          ⟨⟨[], [], 0⟩, []⟩, 0⟩ "ltex.dictionary"
          (JVal.dict [("en", JVal.list [JVal.str "w"])])).1.st ∧
      (update_from_code_action env2 "ltex.dictionary"
        (JVal.dict [("en", JVal.list [JVal.str "w"])])).2 =
        (update_from_code_action ⟨[("use_external_dictionary_files", JVal.bool true),
          ("settings", JVal.dict [("dictionary", JVal.dict [("en",
            JVal.list [JVal.str "aliasword"])]), ("ltex.dictionary", JVal.dict [])])],
          ⟨⟨[], [], 0⟩, []⟩, 0⟩ "ltex.dictionary"
          (JVal.dict [("en", JVal.list [JVal.str "w"])])).2)) :=
  ⟨rfl, rfl,
    C10_canonical_key_frame
      ⟨[("use_external_dictionary_files", JVal.bool true),
        ("settings", JVal.dict [("dictionary", JVal.dict [("en",
          JVal.list [JVal.str "aliasword"])]), ("ltex.dictionary", JVal.dict [])])],
        ⟨⟨[], [], 0⟩, []⟩, 0⟩ "ltex.dictionary"
      (JVal.dict [("en", JVal.list [JVal.str "w"])]) dictionaryScope rfl rfl⟩

/-- Claim C1: inline-to-external migration.  For a scope with external files
enabled and a single-language code action whose language has non-marker
(literal) inline entries, the call appends both the incoming entries and the
existing inline literals to the scope's file — the file's word set afterwards
is the union of the old file words, the old inline literals, and the incoming
entries — replaces the inline value with the single-element canonical marker
list, persists the configuration (save counter bumped), and returns false. -/
theorem C1_inline_migration (env : Env) (key : String) (scope : SettingScope)
    (lang : String) (items : JVal)
    (hscope : findScope key = some scope)
    (hen : external_enabled env.store scope = true)
    (hinc : ¬ filterStr (as_list items) = [])
    (hincv : validWords (filterStr (as_list items)) = true)
    (hembv : validWords (embeddedOf env scope lang) = true)
    (hemb : ¬ embeddedOf env scope lang = [])
    (hcoh : pathCoherent env.st (pathStr (get_active_dict_path env.store scope lang)) = true)
    (hwf : contentWF env.st (pathStr (get_active_dict_path env.store scope lang)) = true) :
    (update_from_code_action env key (JVal.dict [(lang, items)])).2 = false ∧
    (update_from_code_action env key (JVal.dict [(lang, items)])).1.saves = env.saves + 1 ∧
    jGet (as_dict (jGet (storedServerSettings
        (update_from_code_action env key (JVal.dict [(lang, items)])).1) scope.server_key)) lang =
      JVal.list [JVal.str (create_marker (get_active_dict_path env.store scope lang))] ∧
    (∀ w, w ∈ parseWords (contentChars
        (update_from_code_action env key (JVal.dict [(lang, items)])).1.st
        (pathStr (get_active_dict_path env.store scope lang))) ↔
      (w ∈ parseWords (contentChars env.st (pathStr (get_active_dict_path env.store scope lang))) ∨
       w ∈ embeddedOf env scope lang ∨ w ∈ filterStr (as_list items))) := by
  have hs := findScope_mem key scope hscope
  have hmark := marker_is_marker scope hs env.store lang
  rw [update_route_some env key (JVal.dict [(lang, items)]) scope hscope, if_pos hen,
    update_ext_unfold,
    show as_dict (JVal.dict [(lang, items)]) = [(lang, items)] from rfl]
  obtain ⟨hl1, hl2, hl3⟩ :=
    extLoop_pure scope [(lang, items)] env (storedCfg env scope) false false
  have hlst : (extLoop scope env (storedCfg env scope) false false [(lang, items)]).1.st =
      (extPure scope env.store (env.st, storedCfg env scope, false, false)
        [(lang, items)]).1 := congrArg Prod.fst hl3
  have hlres : (extLoop scope env (storedCfg env scope) false false [(lang, items)]).2 =
      (extPure scope env.store (env.st, storedCfg env scope, false, false)
        [(lang, items)]).2 := congrArg Prod.snd hl3
  have hpure : extPure scope env.store (env.st, storedCfg env scope, false, false)
      [(lang, items)] =
      (extStepSt scope env.store env.st (storedCfg env scope) lang items,
       extStepRes scope env.store env.st (storedCfg env scope) false false lang items) := by
    rw [extPure_cons, extPure_nil]
  have hexne : ¬ filterStr (as_list (jGet (storedCfg env scope) lang)) =
      [create_marker (get_active_dict_path env.store scope lang)] := by
    intro hmx
    apply hemb
    show (filterStr (as_list (jGet (storedCfg env scope) lang))).filter
      (fun x => !is_external_marker x) = []
    rw [hmx]
    simp [hmark]
  have hres := extStepRes_nomarker scope env.store env.st (storedCfg env scope)
    false false lang items hinc hexne
  have hemb' : ¬ (filterStr (as_list (jGet (storedCfg env scope) lang))).filter
      (fun x => !is_external_marker x) = [] := hemb
  have hstv : extStepSt scope env.store env.st (storedCfg env scope) lang items =
      (append_words_to_file
        (append_words_to_file env.st (get_active_dict_path env.store scope lang)
          (filterStr (as_list items))).1
        (get_active_dict_path env.store scope lang)
        (embeddedOf env scope lang)).1 := by
    rw [extStepSt_go scope env.store env.st (storedCfg env scope) lang items hinc,
      if_neg hemb']
    rfl
  have hch : (extLoop scope env (storedCfg env scope) false false
      [(lang, items)]).2.2.1 = true := by
    rw [hlres, hpure]
    dsimp only
    rw [hres]
  rw [if_pos hch]
  refine ⟨rfl, ?_, ?_, ?_⟩
  · show (extLoop scope env (storedCfg env scope) false false
      [(lang, items)]).1.saves + 1 = env.saves + 1
    rw [hl2]
  · show jGet (as_dict (jGet (storedServerSettings (persist_settings
      (extLoop scope env (storedCfg env scope) false false [(lang, items)]).1
      (alistSet (storedServerSettings env) scope.server_key
        (JVal.dict (extLoop scope env (storedCfg env scope) false false
          [(lang, items)]).2.1)))) scope.server_key)) lang = _
    rw [storedServerSettings_persist, jGet_set_self]
    show jGet (extLoop scope env (storedCfg env scope) false false
      [(lang, items)]).2.1 lang = _
    rw [hlres, hpure]
    dsimp only
    rw [hres]
    dsimp only
    rw [jGet_set_self]
  · intro w
    show w ∈ parseWords (contentChars
        (extLoop scope env (storedCfg env scope) false false [(lang, items)]).1.st
        (pathStr (get_active_dict_path env.store scope lang))) ↔ _
    rw [hlst, hpure]
    dsimp only
    rw [hstv]
    obtain ⟨s1add, s1parse, s1coh, s1wf, _, _⟩ :=
      append_spec env.st (get_active_dict_path env.store scope lang)
        (filterStr (as_list items)) hincv hcoh hwf
    obtain ⟨s2add, s2parse, _, _, _, _⟩ :=
      append_spec (append_words_to_file env.st (get_active_dict_path env.store scope lang)
          (filterStr (as_list items))).1
        (get_active_dict_path env.store scope lang)
        (embeddedOf env scope lang) hembv s1coh s1wf
    rw [s2parse, s1parse]
    constructor
    · intro hw
      rcases List.mem_append.mp hw with hw1 | hw2
      · rcases List.mem_append.mp hw1 with hw0 | hwi
        · exact Or.inl hw0
        · exact Or.inr (Or.inr ((s1add w).mp hwi).1)
      · exact Or.inr (Or.inl ((s2add w).mp hw2).1)
    · intro hw
      rcases hw with hw0 | hwe | hwi
      · exact List.mem_append.mpr (Or.inl (List.mem_append.mpr (Or.inl hw0)))
      · by_cases hin : w ∈ parseWords (contentChars (append_words_to_file env.st
            (get_active_dict_path env.store scope lang) (filterStr (as_list items))).1
            (pathStr (get_active_dict_path env.store scope lang)))
        · rw [s1parse] at hin
          exact List.mem_append.mpr (Or.inl hin)
        · exact List.mem_append.mpr (Or.inr ((s2add w).mpr ⟨hwe, hin⟩))
      · by_cases hin : w ∈ parseWords (contentChars env.st
            (pathStr (get_active_dict_path env.store scope lang)))
        · exact List.mem_append.mpr (Or.inl (List.mem_append.mpr (Or.inl hin)))
        · exact List.mem_append.mpr
            (Or.inl (List.mem_append.mpr (Or.inr ((s1add w).mpr ⟨hwi, hin⟩))))

/-- Witness for C1: external mode freshly enabled with inline words
["a", "b"] and incoming ["c"]: the file ends up holding exactly \x7ba, b, c\x7d,
the inline value becomes the canonical marker list, the configuration is
persisted once, and the call returns false. -/
theorem C1_inline_migration_witness :
    findScope "ltex.dictionary" = some dictionaryScope ∧
    external_enabled [("use_external_dictionary_files", JVal.bool true),
      ("settings", JVal.dict [("ltex.dictionary", JVal.dict [("en",
        JVal.list [JVal.str "a", JVal.str "b"])])])] dictionaryScope = true ∧
    ¬ filterStr (as_list (JVal.list [JVal.str "c"])) = [] ∧
    validWords (filterStr (as_list (JVal.list [JVal.str "c"]))) = true ∧
    validWords (embeddedOf ⟨[("use_external_dictionary_files", JVal.bool true),
      ("settings", JVal.dict [("ltex.dictionary", JVal.dict [("en",
        JVal.list [JVal.str "a", JVal.str "b"])])])], ⟨⟨[], [], 0⟩, []⟩, 0⟩
      dictionaryScope "en") = true ∧
    ¬ embeddedOf ⟨[("use_external_dictionary_files", JVal.bool true),
      ("settings", JVal.dict [("ltex.dictionary", JVal.dict [("en",
        JVal.list [JVal.str "a", JVal.str "b"])])])], ⟨⟨[], [], 0⟩, []⟩, 0⟩
      dictionaryScope "en" = [] ∧
    pathCoherent (⟨⟨[], [], 0⟩, []⟩ : St)
      (pathStr (get_active_dict_path [("use_external_dictionary_files", JVal.bool true),
        ("settings", JVal.dict [("ltex.dictionary", JVal.dict [("en",
          JVal.list [JVal.str "a", JVal.str "b"])])])] dictionaryScope "en")) = true ∧
    contentWF (⟨⟨[], [], 0⟩, []⟩ : St)
      (pathStr (get_active_dict_path [("use_external_dictionary_files", JVal.bool true),
        ("settings", JVal.dict [("ltex.dictionary", JVal.dict [("en",
          JVal.list [JVal.str "a", JVal.str "b"])])])] dictionaryScope "en")) = true ∧
    ((update_from_code_action ⟨[("use_external_dictionary_files", JVal.bool true),
        ("settings", JVal.dict [("ltex.dictionary", JVal.dict [("en",
          JVal.list [JVal.str "a", JVal.str "b"])])])], ⟨⟨[], [], 0⟩, []⟩, 0⟩
        "ltex.dictionary" (JVal.dict [("en", JVal.list [JVal.str "c"])])).2 = false ∧
      (update_from_code_action ⟨[("use_external_dictionary_files", JVal.bool true),
        ("settings", JVal.dict [("ltex.dictionary", JVal.dict [("en",
          JVal.list [JVal.str "a", JVal.str "b"])])])], ⟨⟨[], [], 0⟩, []⟩, 0⟩
        "ltex.dictionary" (JVal.dict [("en", JVal.list [JVal.str "c"])])).1.saves = 1 ∧
      jGet (as_dict (jGet (storedServerSettings
          (update_from_code_action ⟨[("use_external_dictionary_files", JVal.bool true),
            ("settings", JVal.dict [("ltex.dictionary", JVal.dict [("en",
              JVal.list [JVal.str "a", JVal.str "b"])])])], ⟨⟨[], [], 0⟩, []⟩, 0⟩
            "ltex.dictionary" (JVal.dict [("en", JVal.list [JVal.str "c"])])).1)
          "ltex.dictionary")) "en" =
        JVal.list [JVal.str ":/Packages/User/LSP-ltex-plus/dictionaries/en.txt"] ∧
      (∀ w, w ∈ parseWords (contentChars
          (update_from_code_action ⟨[("use_external_dictionary_files", JVal.bool true),
            ("settings", JVal.dict [("ltex.dictionary", JVal.dict [("en",
              JVal.list [JVal.str "a", JVal.str "b"])])])], ⟨⟨[], [], 0⟩, []⟩, 0⟩
            "ltex.dictionary" (JVal.dict [("en", JVal.list [JVal.str "c"])])).1.st
          "/Packages/User/LSP-ltex-plus/dictionaries/en.txt") ↔
        (w ∈ ([] : List String) ∨ w ∈ ["a", "b"] ∨ w ∈ ["c"]))) :=
  ⟨rfl, rfl, by decide, by decide, by decide, by decide, by decide, by decide,
    C1_inline_migration ⟨[("use_external_dictionary_files", JVal.bool true),
      ("settings", JVal.dict [("ltex.dictionary", JVal.dict [("en",
        JVal.list [JVal.str "a", JVal.str "b"])])])], ⟨⟨[], [], 0⟩, []⟩, 0⟩
      "ltex.dictionary" dictionaryScope "en" (JVal.list [JVal.str "c"])
      rfl rfl (by decide) (by decide) (by decide) (by decide) (by decide) (by decide)⟩

end LtexPlus
